import Mathlib

/-!
Verification of the `ord` block-chain indexer's updater (`src/index/updater.rs`)
against its natural-language specification.

The development shallowly embeds the indexing pipeline: the 11-byte sat-range
codec, the per-transaction satoshi assignment procedure, the inscription
tracker, the reorg guard in `index_block`, the rehydration of spent outpoints
from the write cache and the `OUTPOINT_TO_RANGES` table, the commit/flush
manager, and the block fetcher's retry loop.  Machine integers are modelled as
`Nat` with explicit truncation (`% 2 ^ w`) where the source truncates; redb
tables are modelled as association lists ordered by their binary keys;
fallible code returns `Except`.
-/

/-! ### Byte strings

Keys and values of the store are byte strings; we model a byte string as a
`List ℕ` whose entries are below 256 by construction. -/

/-- `k` little-endian base-256 digits of `n` (i.e. the first `k` bytes of the
little-endian representation, as produced by `to_le_bytes` truncated to `k`). -/
def leBytes : ℕ → ℕ → List ℕ
  | 0, _ => []
  | k + 1, n => n % 256 :: leBytes k (n / 256)

/-- Read a little-endian byte string back as a natural number (the
"zero-extend" of the spec: missing high bytes are zero). -/
def bytesToNat : List ℕ → ℕ
  | [] => 0
  | b :: r => b + 256 * bytesToNat r

/-- Strict lexicographic order on byte strings, the key order of the store's
binary tables. -/
def bytesLt : List ℕ → List ℕ → Bool
  | _, [] => false
  | [], _ :: _ => true
  | a :: as, b :: bs => a.blt b || (a == b && bytesLt as bs)

/-! ### The sat-range codec

`encodeRangeBytes` is the in-line encoder of `index_transaction_sats`
(updater.rs lines 477-482): `n = u128::from(base) | u128::from(delta) << 51`
followed by `n.to_le_bytes()[0..11]`.  Both operands come from `u64`s so the
`u128` arithmetic never wraps and is faithfully `Nat` arithmetic; taking the
low 11 bytes is `% 2 ^ 88`, which `leBytes 11` performs. -/

/-- The encoder of `index_transaction_sats`: pack `(base, delta)` into the
low 11 little-endian bytes of `base ||| delta <<< 51`. -/
def encodeRangeBytes (base delta : ℕ) : List ℕ :=
  leBytes 11 (base ||| delta <<< 51)

/-- Modelled from the spec: `Index::decode_sat_range` is not part of the
provided sources; per spec §4.A it zero-extends the 11-byte record, reads the
low 51 bits as `start` and the next 51 bits as `delta`, and returns
`(start, start + delta)`. -/
def decode_sat_range (b : List ℕ) : ℕ × ℕ :=
  let n := bytesToNat b
  let start := n % 2 ^ 51
  let delta := n / 2 ^ 51 % 2 ^ 51
  (start, start + delta)

/-- Split a `RangeList` byte string into its 11-byte records
(`chunks_exact(11)`: a trailing fragment shorter than 11 bytes is dropped). -/
def chunks11 : List ℕ → List (List ℕ)
  | b0 :: b1 :: b2 :: b3 :: b4 :: b5 :: b6 :: b7 :: b8 :: b9 :: b10 :: rest =>
    [b0, b1, b2, b3, b4, b5, b6, b7, b8, b9, b10] :: chunks11 rest
  | _ => []

/-- Decode a whole `RangeList` byte string into its list of ranges. -/
def decodeRangeList (l : List ℕ) : List (ℕ × ℕ) :=
  (chunks11 l).map decode_sat_range

/-- Sum of `end − start` over a list of ranges. -/
def sumDeltas (l : List (ℕ × ℕ)) : ℕ :=
  (l.map (fun r => r.2 - r.1)).sum

/-- Sum of `end − start` over a whole deque of input ranges. -/
def rangesTotal (l : List (ℕ × ℕ)) : ℕ :=
  (l.map (fun r => r.2 - r.1)).sum

/-! ### The store

redb tables are modelled as association lists.  Byte-keyed tables (`Tbl`)
keep their entries sorted by the lexicographic key order so that range scans
iterate in ascending key order, as redb's do; integer-keyed tables (`NTbl`)
are plain association lists (the code never scans them inside the updater).
Both have map semantics: one value per key. -/

abbrev Tbl (α : Type) : Type := List (List ℕ × α)

def tget {α : Type} (t : Tbl α) (k : List ℕ) : Option α :=
  (t.find? (fun p => p.1 == k)).map (fun p => p.2)

def trem {α : Type} (t : Tbl α) (k : List ℕ) : Tbl α :=
  t.filter (fun p => !(p.1 == k))

def tins {α : Type} : Tbl α → List ℕ → α → Tbl α
  | [], k, v => [(k, v)]
  | (k', v') :: rest, k, v =>
    if bytesLt k k' then (k, v) :: (k', v') :: rest
    else if k = k' then (k, v) :: rest
    else (k', v') :: tins rest k v

/-- Ascending range scan over the closed key interval `[lo, hi]`. -/
def tscan {α : Type} (t : Tbl α) (lo hi : List ℕ) : List (List ℕ × α) :=
  t.filter (fun p => !bytesLt p.1 lo && !bytesLt hi p.1)

abbrev NTbl (α : Type) : Type := List (ℕ × α)

def ntget {α : Type} (t : NTbl α) (k : ℕ) : Option α :=
  (t.find? (fun p => p.1 == k)).map (fun p => p.2)

def ntins {α : Type} (t : NTbl α) (k : ℕ) (v : α) : NTbl α :=
  (k, v) :: t.filter (fun p => !(p.1 == k))

def ntgetD {α : Type} (t : NTbl α) (k : ℕ) (d : α) : α :=
  (ntget t k).getD d

/-! ### Domain data types

`Txid`s and `BlockHash`es are 32-byte values, modelled as naturals below
`2 ^ 256`; the keys written to the store are their byte encodings. -/

structure OutPoint where
  txid : ℕ
  vout : ℕ
deriving DecidableEq, Repr

structure SatPoint where
  outpoint : OutPoint
  offset : ℕ
deriving DecidableEq, Repr

structure TxIn where
  previous_output : OutPoint
deriving DecidableEq, Repr

structure TxOut where
  value : ℕ
deriving DecidableEq, Repr

structure Transaction where
  input : List TxIn
  output : List TxOut
deriving DecidableEq, Repr

/-- A block header; only the fields the updater reads are modelled.  The block
hash is a function of the whole header; it is carried as a field `hash` since
the hashing itself is external to the updater. -/
structure Header where
  prev_blockhash : ℕ
  hash : ℕ
deriving DecidableEq, Repr

/-- `BlockData`: header plus transactions paired with their eagerly computed
txids. -/
structure BlockData where
  header : Header
  txdata : List (Transaction × ℕ)
deriving DecidableEq, Repr

/-- `encode_outpoint`: `txid ‖ vout_le`, 36 bytes (spec §3). -/
def encode_outpoint (o : OutPoint) : List ℕ :=
  leBytes 32 o.txid ++ leBytes 4 o.vout

/-- `encode_satpoint`: `outpoint ‖ offset_le`, 44 bytes (spec §3). -/
def encode_satpoint (p : SatPoint) : List ℕ :=
  encode_outpoint p.outpoint ++ leBytes 8 p.offset

/-- The inscription-id key of a txid: its 32 raw bytes (`txid.as_inner()`). -/
def idBytes (txid : ℕ) : List ℕ :=
  leBytes 32 txid

/-- `u64::MAX`. -/
def U64MAX : ℕ := 2 ^ 64 - 1

/-! ### The store state

All tables the updater touches, plus the `STATISTICS` table used by
`commit`. -/

structure Store where
  heightToHash : NTbl ℕ
  outpointToSatRanges : Tbl (List ℕ)
  satToSatpoint : NTbl (List ℕ)
  satToInsId : NTbl (List ℕ)
  id2sat : Tbl (List ℕ)
  sat2id : Tbl (List ℕ)
  stats : NTbl ℕ

/-- The in-memory fields of `struct Updater`. -/
structure Updater where
  cache : Tbl (List ℕ)
  height : ℕ
  index_satoshis : Bool
  sat_ranges_since_flush : ℕ
  outputs_cached : ℕ
  outputs_inserted_since_flush : ℕ
  outputs_traversed : ℕ

/-- Error kinds of the indexing pipeline (spec §7). -/
inductive Err where
  | reorg
  | insufficientInputs
  | missingOutpoint
  | missingPrevHash
deriving DecidableEq, Repr

/-! ### The inscription tracker (`index_transaction_inscriptions`)

Faithful to updater.rs lines 369-418.  The inscription parser is the opaque
predicate `insc` (spec §6: `inscription_of(tx)`; the code only tests
`Inscription::from_transaction(tx).is_some()`). -/

/-- One migration step of the hit loop (updater.rs lines 405-414): delete the
old satpoint row, point both indices at `Satpoint((txid, 0), 0)`. -/
def migrateHit (txid : ℕ) (s : Store) (hit : List ℕ × List ℕ) : Store :=
  let new_satpoint := encode_satpoint ⟨⟨txid, 0⟩, 0⟩
  { s with
    sat2id := tins (trem s.sat2id hit.1) new_satpoint hit.2
    id2sat := tins s.id2sat hit.2 new_satpoint }

/-- Processing of one input (updater.rs lines 388-415): scan the satpoint
table over the input's outpoint prefix interval and migrate every hit. -/
def moveInput (txid : ℕ) (s : Store) (txin : TxIn) : Store :=
  let op := txin.previous_output
  let lo := encode_satpoint ⟨op, 0⟩
  let hi := encode_satpoint ⟨op, U64MAX⟩
  let hits := tscan s.sat2id lo hi
  hits.foldl (migrateHit txid) s

/-- `index_transaction_inscriptions` (updater.rs lines 369-418). -/
def index_transaction_inscriptions (insc : Transaction → Bool)
    (tx : Transaction) (txid : ℕ) (s : Store) : Bool × Store :=
  let inscribed := insc tx
  let s :=
    if inscribed then
      let satpoint := encode_satpoint ⟨⟨txid, 0⟩, 0⟩
      { s with
        id2sat := tins s.id2sat (idBytes txid) satpoint
        sat2id := tins s.sat2id satpoint (idBytes txid) }
    else s
  (inscribed, tx.input.foldl (moveInput txid) s)

/-! ### The assignment procedure (`index_transaction_sats`, updater.rs 420-496)

`common` is the externally supplied rarity predicate `Sat::is_common` (spec
§3: "an implementer treats the predicate as externally supplied").  The `vout`
written into keys is the enumeration index; the source converts it to `u32`
(`vout.try_into().unwrap()`) and the key codec truncates it to 4 bytes. -/

/-- The inner `while remaining > 0` loop (updater.rs 451-487): pop the front
range, record a rare first sat, split if the range exceeds `remaining`,
append the 11-byte record, decrease `remaining`. -/
def assignLoop (common : ℕ → Bool) (txid vout value : ℕ)
    (ranges : List (ℕ × ℕ)) (remaining : ℕ) (sats : List ℕ)
    (u : Updater) (s : Store) (written : ℕ) :
    Except Err (List (ℕ × ℕ) × List ℕ × Updater × Store × ℕ) :=
  if remaining = 0 then .ok (ranges, sats, u, s, written)
  else
    match ranges with
    | [] => .error .insufficientInputs
    | (a, b) :: rest =>
      let s :=
        if !(common a) then
          { s with satToSatpoint :=
              ntins s.satToSatpoint a (encode_satpoint ⟨⟨txid, vout⟩, value - remaining⟩) }
        else s
      let count := b - a
      if count > remaining then
        let middle := a + remaining
        let u := { u with sat_ranges_since_flush := u.sat_ranges_since_flush + 1 }
        assignLoop common txid vout value ((middle, b) :: rest)
          (remaining - (middle - a)) (sats ++ encodeRangeBytes a (middle - a))
          u s (written + 1)
      else
        assignLoop common txid vout value rest (remaining - count)
          (sats ++ encodeRangeBytes a (b - a)) u s (written + 1)
termination_by remaining + ranges.length
decreasing_by
  · simp only [List.length_cons]
    omega
  · simp only [List.length_cons]
    omega

/-- The outer `for (vout, output)` loop (updater.rs 443-493): run the
assignment for each output and install the output's `RangeList` into the
cache. -/
def outputsLoop (common : ℕ → Bool) (txid : ℕ)
    (outs : List TxOut) (vout : ℕ) (ranges : List (ℕ × ℕ))
    (u : Updater) (s : Store) (written traversed : ℕ) :
    Except Err (List (ℕ × ℕ) × Updater × Store × ℕ × ℕ) :=
  match outs with
  | [] => .ok (ranges, u, s, written, traversed)
  | o :: rest =>
    match assignLoop common txid vout o.value ranges o.value [] u s written with
    | .error e => .error e
    | .ok (ranges, sats, u, s, written) =>
      let outpoint : OutPoint := ⟨txid, vout⟩
      let u := { u with
        cache := tins u.cache (encode_outpoint outpoint) sats
        outputs_inserted_since_flush := u.outputs_inserted_since_flush + 1 }
      outputsLoop common txid rest (vout + 1) ranges u s written (traversed + 1)

/-- `index_transaction_sats` (updater.rs 420-496): first the inscription
tracker; if the transaction inscribed and the input deque is nonempty, record
the pre-pop front's start in `SAT_TO_INSCRIPTION_ID`; then assign input
ranges to outputs. -/
def index_transaction_sats (insc : Transaction → Bool) (common : ℕ → Bool)
    (tx : Transaction) (txid : ℕ) (ranges : List (ℕ × ℕ))
    (u : Updater) (s : Store) (written traversed : ℕ) :
    Except Err (List (ℕ × ℕ) × Updater × Store × ℕ × ℕ) :=
  let p := index_transaction_inscriptions insc tx txid s
  let s := p.2
  let s :=
    if p.1 then
      match ranges.head? with
      | some r => { s with satToInsId := ntins s.satToInsId r.1 (idBytes txid) }
      | none => s
    else s
  outputsLoop common txid tx.output 0 ranges u s written traversed

/-! ### Rehydration of spent outpoints (updater.rs 294-312) -/

/-- Fetch and delete the `RangeList` of one spent outpoint: the in-memory
cache is consulted (and emptied) first via `HashMap::remove`; only on a cache
miss is the row removed from `OUTPOINT_TO_RANGES`; a miss in both is the
`MissingOutpoint` hard error. -/
def takeRanges (u : Updater) (s : Store) (prev : OutPoint) :
    Except Err (List ℕ × Updater × Store) :=
  let key := encode_outpoint prev
  match tget u.cache key with
  | some sr =>
    .ok (sr, { u with cache := trem u.cache key,
                      outputs_cached := u.outputs_cached + 1 }, s)
  | none =>
    match tget s.outpointToSatRanges key with
    | some sr =>
      .ok (sr, u, { s with outpointToSatRanges := trem s.outpointToSatRanges key })
    | none => .error .missingOutpoint

/-- Build the input deque of a transaction: concatenate, in input order, the
decoded 11-byte records of each spent outpoint's `RangeList`. -/
def rehydrate (u : Updater) (s : Store) (inputs : List TxIn)
    (acc : List (ℕ × ℕ)) : Except Err (List (ℕ × ℕ) × Updater × Store) :=
  match inputs with
  | [] => .ok (acc, u, s)
  | txin :: rest =>
    match takeRanges u s txin.previous_output with
    | .error e => .error e
    | .ok (sr, u, s) => rehydrate u s rest (acc ++ decodeRangeList sr)

/-! ### Block subsidy (spec §4.F)

`Height::subsidy` and `Height::starting_sat` are not part of the provided
sources. -/

/-- Modelled from the spec: the subsidy halves every 210 000 blocks starting
at `50 · 10⁸`, becoming zero after 33 halvings. -/
def subsidy (h : ℕ) : ℕ :=
  if h / 210000 < 33 then 5000000000 / 2 ^ (h / 210000) else 0

/-- Modelled from the spec: `start_sat(h) = Σ_{i<h} subsidy(i)`. -/
def starting_sat : ℕ → ℕ
  | 0 => 0
  | h + 1 => starting_sat h + subsidy h

/-! ### `index_block` (updater.rs 242-367) -/

/-- The per-block loop over non-coinbase transactions (updater.rs 289-327):
rehydrate each transaction's inputs, assign them to its outputs, and append
the leftover (the fee) to `coinbase_inputs`. -/
def blockTxLoop (insc : Transaction → Bool) (common : ℕ → Bool)
    (txs : List (Transaction × ℕ)) (u : Updater) (s : Store)
    (coinbase_inputs : List (ℕ × ℕ)) (written outputs_in_block : ℕ) :
    Except Err (Updater × Store × List (ℕ × ℕ) × ℕ × ℕ) :=
  match txs with
  | [] => .ok (u, s, coinbase_inputs, written, outputs_in_block)
  | (tx, txid) :: rest =>
    match rehydrate u s tx.input [] with
    | .error e => .error e
    | .ok (input_sat_ranges, u, s) =>
      match index_transaction_sats insc common tx txid input_sat_ranges u s
          written outputs_in_block with
      | .error e => .error e
      | .ok (leftover, u, s, written, outputs_in_block) =>
        blockTxLoop insc common rest u s (coinbase_inputs ++ leftover)
          written outputs_in_block

/-- Write the block hash row and advance the height (updater.rs 353-359). -/
def finishBlock (u : Updater) (s : Store) (reorged : Bool)
    (block : BlockData) (outputs_in_block : ℕ) :
    Updater × Store × Bool :=
  let s := { s with heightToHash := ntins s.heightToHash u.height block.header.hash }
  let u := { u with
    height := u.height + 1
    outputs_traversed := u.outputs_traversed + outputs_in_block }
  (u, s, reorged)

/-- The work `index_block` performs after the reorg guard (updater.rs
272-351): the satoshi branch injects the coinbase subsidy range, processes
the non-coinbase transactions, then sweeps fees through the coinbase; the
inscription-only branch runs the inscription tracker over every transaction.
Returns the updated updater and store plus the block's output count. -/
def index_block_work (insc : Transaction → Bool) (common : ℕ → Bool)
    (u : Updater) (s : Store) (block : BlockData) :
    Except Err (Updater × Store × ℕ) :=
  if u.index_satoshis then
    let h := u.height
    let cb0 : List (ℕ × ℕ) :=
      if subsidy h > 0 then [(starting_sat h, starting_sat h + subsidy h)]
      else []
    let u :=
      if subsidy h > 0 then
        { u with sat_ranges_since_flush := u.sat_ranges_since_flush + 1 }
      else u
    match blockTxLoop insc common (block.txdata.drop 1) u s cb0 0 0 with
    | .error e => .error e
    | .ok (u, s, coinbase_inputs, written, outputs_in_block) =>
      match block.txdata.head? with
      | some (tx, txid) =>
        match index_transaction_sats insc common tx txid coinbase_inputs u s
            written outputs_in_block with
        | .error e => .error e
        | .ok (_, u, s, _, outputs_in_block) => .ok (u, s, outputs_in_block)
      | none => .ok (u, s, outputs_in_block)
  else
    let s := block.txdata.foldl
      (fun s p => (index_transaction_inscriptions insc p.1 p.2 s).2) s
    .ok (u, s, 0)

/-- `index_block` (updater.rs 242-367).  The error payload carries the store
and the `reorged` flag; for the reorg guard, which fires before any write,
the carried store is exactly the incoming one.  For errors raised later the
carried store is the pre-block one — the enclosing write transaction is
abandoned on any error, so no error store is ever committed.  A missing
parent-hash row (`.unwrap()` in the source, a panic) is modelled as the
error `missingPrevHash`. -/
def index_block (insc : Transaction → Bool) (common : ℕ → Bool)
    (u : Updater) (s : Store) (reorged : Bool) (block : BlockData) :
    Except (Err × Store × Bool) (Updater × Store × Bool) :=
  match
    (if u.height = 0 then .ok ()
     else
       match ntget s.heightToHash (u.height - 1) with
       | none => .error (Err.missingPrevHash, s, reorged)
       | some prev_hash =>
         if prev_hash ≠ block.header.prev_blockhash then
           .error (Err.reorg, s, true)
         else .ok () : Except (Err × Store × Bool) Unit)
  with
  | .error e => .error e
  | .ok () =>
    match index_block_work insc common u s block with
    | .error e => .error (e, s, reorged)
    | .ok (u2, s2, outputs_in_block) =>
      .ok (finishBlock u2 s2 reorged block outputs_in_block)

/-! ### Commit (updater.rs 498-533) -/

def StatOutputsTraversed : ℕ := 0
def StatSatRanges : ℕ := 1
def StatCommits : ℕ := 2

/-- Modelled from the spec: `Index::increment_statistic` is not part of the
provided sources; per spec §3/§4.H the `STATISTICS` table holds accumulating
`u64` counters keyed by tag, and an increment adds to the stored value. -/
def increment_statistic (s : Store) (tag n : ℕ) : Store :=
  { s with stats := ntins s.stats tag (ntgetD s.stats tag 0 + n) }

/-- `commit` (updater.rs 498-533): when satoshi indexing is on, flush every
cache entry into `OUTPOINT_TO_RANGES` and clear the cache; then bump the
three statistics and commit.  The source iterates the `HashMap` in arbitrary
order; the fold here fixes one order, which yields the same table because
cache keys are distinct. -/
def commit (u : Updater) (s : Store) : Updater × Store :=
  let p :=
    if u.index_satoshis then
      let tbl := u.cache.foldl (fun t q => tins t q.1 q.2) s.outpointToSatRanges
      ({ u with cache := [], outputs_inserted_since_flush := 0 },
       { s with outpointToSatRanges := tbl })
    else (u, s)
  let u := p.1
  let s := p.2
  let s := increment_statistic s StatOutputsTraversed u.outputs_traversed
  let u := { u with outputs_traversed := 0 }
  let s := increment_statistic s StatSatRanges u.sat_ranges_since_flush
  let u := { u with sat_ranges_since_flush := 0 }
  let s := increment_statistic s StatCommits 1
  (u, s)

/-! ### The block fetcher (`get_block_with_retries`, updater.rs 197-240)

The RPC client is modelled as attempt-indexed functions so that successive
retries may observe different outcomes; a transport error is an opaque
`Unit`.  Sleeps are recorded as a trace of durations in seconds. -/

structure Block where
  header : Header
  txdata : List Transaction
deriving DecidableEq, Repr

structure FetchClient where
  hashAt : ℕ → ℕ → Except Unit (Option ℕ)
  blockOf : ℕ → ℕ → Except Unit Block
  headerOf : ℕ → ℕ → Except Unit Header

/-- One iteration of the fetch loop (updater.rs 204-220): look up the hash at
`height`; absent means end of chain; otherwise fetch the full block, or just
the header with an empty transaction list when `with_transactions` is
false. -/
def fetchOnce (c : FetchClient) (i height : ℕ) (wt : Bool) :
    Except Unit (Option Block) :=
  match c.hashAt i height with
  | .error e => .error e
  | .ok none => .ok none
  | .ok (some hsh) =>
    if wt then
      match c.blockOf i hsh with
      | .error e => .error e
      | .ok b => .ok (some b)
    else
      match c.headerOf i hsh with
      | .error e => .error e
      | .ok hd => .ok (some { header := hd, txdata := [] })

/-- The retry loop (updater.rs 202-239): on failure, fail at once under
`cfg!(test)`; otherwise bump the error counter, give up if the backoff
`2^errors` would exceed 120 seconds, else sleep that long and retry. -/
def retriesAux (cfgTest : Bool) (c : FetchClient) (height : ℕ) (wt : Bool)
    (i errors : ℕ) (sleeps : List ℕ) :
    Except Unit (Option Block) × List ℕ :=
  match fetchOnce c i height wt with
  | .ok r => (.ok r, sleeps)
  | .error e =>
    if cfgTest then (.error e, sleeps)
    else
      let seconds := 1 <<< (errors + 1)
      if seconds > 120 then (.error e, sleeps)
      else
        retriesAux cfgTest c height wt (i + 1) (errors + 1) (sleeps ++ [seconds])
termination_by 7 - errors
decreasing_by
  rename_i hgt
  unfold seconds at hgt
  rw [Nat.one_shiftLeft, Nat.not_lt] at hgt
  have h6 : errors + 1 ≤ 6 := by
    by_contra hc
    push_neg at hc
    have hpow : (2 : ℕ) ^ 7 ≤ 2 ^ (errors + 1) :=
      Nat.pow_le_pow_right (by norm_num) hc
    norm_num at hpow
    omega
  omega

/-- `get_block_with_retries` (updater.rs 197-240), returning the result and
the trace of sleeps. -/
def get_block_with_retries (cfgTest : Bool) (c : FetchClient) (height : ℕ)
    (wt : Bool) : Except Unit (Option Block) × List ℕ :=
  retriesAux cfgTest c height wt 0 0 []



/-- Wellformedness of a sat range as the indexer rehydrates them: ordered,
ending below `2 ^ 51` (spec §3), with a delta that fits the 37 bits an
11-byte record leaves beside a 51-bit start (every decoded record satisfies
this by construction). -/
def RangeWf (r : ℕ × ℕ) : Prop :=
  r.1 ≤ r.2 ∧ r.2 < 2 ^ 51 ∧ r.2 - r.1 < 2 ^ 37

/-- Total value of a transaction's outputs. -/
def txOutTotal (outs : List TxOut) : ℕ :=
  (outs.map (fun o => o.value)).sum

/-- Wellformedness bounds of an outpoint: its components fit their machine
widths. -/
def OPWf (o : OutPoint) : Prop := o.txid < 2 ^ 256 ∧ o.vout < 2 ^ 32

/-- Wellformedness bounds of a satpoint. -/
def SPWf (p : SatPoint) : Prop := OPWf p.outpoint ∧ p.offset < 2 ^ 64

/-- The satpoint key every inscription of a transaction snaps to:
`Satpoint((txid, 0), 0)`. -/
def newSatKey (txid : ℕ) : List ℕ :=
  encode_satpoint ⟨⟨txid, 0⟩, 0⟩

/-- Every key of the satpoint table is the encoding of a well-formed
satpoint. -/
def SatKeysWf (t : Tbl (List ℕ)) : Prop :=
  ∀ p ∈ t, ∃ q : SatPoint, SPWf q ∧ p.1 = encode_satpoint q

/-- A byte-keyed table is sorted strictly ascending by key — the shape redb
maintains and every `tins`-built table has. -/
def TblSorted {α : Type} (t : Tbl α) : Prop :=
  t.Pairwise (fun p q => bytesLt p.1 q.1 = true)

/-- One direction of the inverse-index invariant: every row `s ↦ id` of
`SATPOINT_TO_INSCRIPTION` is mirrored by `INSCRIPTION_TO_SATPOINT[id] = s`. -/
def InvPair (sat2id id2sat : Tbl (List ℕ)) : Prop :=
  ∀ k v, tget sat2id k = some v → tget id2sat v = some k

/-! ### Concrete instances used by witnesses and counterexamples -/

def emptyStore : Store := ⟨[], [], [], [], [], [], []⟩

def inscAlways : Transaction → Bool := fun _ => true

def inscNever : Transaction → Bool := fun _ => false

/-- A rarity predicate under which every sat is common. -/
def commonAll : ℕ → Bool := fun _ => true

/-- An updater whose cache holds the outpoint `(1, 0)` with range list `[7]`. -/
def uC4 : Updater := ⟨[(encode_outpoint ⟨1, 0⟩, [7])], 0, true, 0, 0, 0, 0⟩

/-- A fresh satoshi-indexing updater. -/
def uFresh : Updater := ⟨[], 0, true, 0, 0, 0, 0⟩

/-- Extract the `.ok` payload of an `index_transaction_sats` result (dummy on
error). -/
def exPay (r : Except Err (List (ℕ × ℕ) × Updater × Store × ℕ × ℕ)) :
    List (ℕ × ℕ) × Updater × Store × ℕ × ℕ :=
  match r with
  | .ok p => p
  | .error _ => ([], ⟨[], 0, false, 0, 0, 0, 0⟩, ⟨[], [], [], [], [], [], []⟩, 0, 0)

/-- The transaction of the C7 witness: no inputs, one 60-sat output. -/
def tx7 : Transaction := ⟨[], [⟨60⟩]⟩

def c7call : Except Err (List (ℕ × ℕ) × Updater × Store × ℕ × ℕ) :=
  index_transaction_sats inscAlways commonAll tx7 1 [(100, 200)] uFresh emptyStore 0 0

/-- The payload `c7call` evaluates to: the 60-sat output consumed and split
the front range `(100, 200)`, pushing `(160, 200)` back. -/
def c7pay : List (ℕ × ℕ) × Updater × Store × ℕ × ℕ :=
  ([(160, 200)],
   ⟨[(encode_outpoint ⟨1, 0⟩, encodeRangeBytes 100 60)], 0, true, 1, 0, 1, 0⟩,
   ⟨[], [], [], [(100, idBytes 1)], [(idBytes 1, encode_satpoint ⟨⟨1, 0⟩, 0⟩)],
    [(encode_satpoint ⟨⟨1, 0⟩, 0⟩, idBytes 1)], []⟩,
   1, 1)

/-- Store of the C2 witness: height 0 has hash 5. -/
def sC2 : Store := ⟨[(0, 5)], [], [], [], [], [], []⟩

/-- Updater of the C2 witness: at height 1. -/
def uC2 : Updater := ⟨[], 1, true, 0, 0, 0, 0⟩

/-- Block of the C2 witness: its parent hash 9 mismatches the stored 5. -/
def blockC2 : BlockData := ⟨⟨9, 77⟩, []⟩

/-- An inscribing transaction with no inputs and no outputs. -/
def tx1cex : Transaction := ⟨[], []⟩

/-- A non-inscribing transaction spending outpoints `(1, 0)` and `(2, 0)`. -/
def tx3cex : Transaction := ⟨[⟨⟨1, 0⟩⟩, ⟨⟨2, 0⟩⟩], []⟩

/-- After txid 1 inscribes on the empty store. -/
def stCex1 : Store :=
  (index_transaction_inscriptions inscAlways tx1cex 1 emptyStore).2

/-- After txid 2 also inscribes. -/
def stCex2 : Store :=
  (index_transaction_inscriptions inscAlways tx1cex 2 stCex1).2

/-- After txid 3 spends both inscribed outpoints in one transaction. -/
def stCex3 : Store :=
  (index_transaction_inscriptions inscNever tx3cex 3 stCex2).2

/-! ### Codec lemmas -/

theorem bytesToNat_leBytes (k n : ℕ) : bytesToNat (leBytes k n) = n % 256 ^ k := by
  induction k generalizing n with
  | zero => simp [leBytes, bytesToNat, Nat.mod_one]
  | succ k ih =>
    simp only [leBytes, bytesToNat, ih]
    rw [pow_succ, mul_comm (256 ^ k) 256, Nat.mod_mul]

theorem leBytes_length (k n : ℕ) : (leBytes k n).length = k := by
  induction k generalizing n with
  | zero => simp [leBytes]
  | succ k ih => simp [leBytes, ih]

theorem leBytes_lt (k n : ℕ) : ∀ b ∈ leBytes k n, b < 256 := by
  induction k generalizing n with
  | zero => simp [leBytes]
  | succ k ih =>
    intro b hb
    simp only [leBytes, List.mem_cons] at hb
    rcases hb with h | h
    · subst h
      exact Nat.mod_lt _ (by norm_num)
    · exact ih _ _ h

theorem leBytes_lt' (k n : ℕ) : ∀ b ∈ leBytes k n, b ≤ 255 := by
  intro b hb
  have := leBytes_lt k n b hb
  omega

/-- `leBytes` is injective below `2 ^ (8 k)` (equivalently `256 ^ k`). -/
theorem leBytes_inj {k m n : ℕ} (hm : m < 256 ^ k) (hn : n < 256 ^ k)
    (h : leBytes k m = leBytes k n) : m = n := by
  have hm' := bytesToNat_leBytes k m
  have hn' := bytesToNat_leBytes k n
  rw [h, hn'] at hm'
  rw [Nat.mod_eq_of_lt hn] at hm'
  rw [hm', Nat.mod_eq_of_lt hm]

theorem mod_two_pow_51_of_lor (a d : ℕ) (ha : a < 2 ^ 51) :
    (a ||| d <<< 51) % 2 ^ 51 = a := by
  apply Nat.eq_of_testBit_eq
  intro i
  rw [Nat.testBit_mod_two_pow, Nat.testBit_lor, Nat.testBit_shiftLeft]
  by_cases hi : i < 51
  · have : ¬ (i ≥ 51) := by omega
    simp [hi, this]
  · have hlow : a.testBit i = false := by
      apply Nat.testBit_eq_false_of_lt
      calc a < 2 ^ 51 := ha
        _ ≤ 2 ^ i := Nat.pow_le_pow_right (by norm_num) (by omega)
    simp [hi, hlow]

theorem div_two_pow_51_of_lor (a d : ℕ) (ha : a < 2 ^ 51) (hd : d < 2 ^ 51) :
    (a ||| d <<< 51) / 2 ^ 51 % 2 ^ 51 = d := by
  rw [← Nat.shiftRight_eq_div_pow]
  apply Nat.eq_of_testBit_eq
  intro i
  rw [Nat.testBit_mod_two_pow, Nat.testBit_shiftRight, Nat.testBit_lor,
    Nat.testBit_shiftLeft]
  have ha' : a.testBit (51 + i) = false := by
    apply Nat.testBit_eq_false_of_lt
    calc a < 2 ^ 51 := ha
      _ ≤ 2 ^ (51 + i) := Nat.pow_le_pow_right (by norm_num) (by omega)
  have hge : (51 + i ≥ 51) := by omega
  by_cases hi : i < 51
  · simp [hi, ha', hge]
  · have hd' : d.testBit i = false := by
      apply Nat.testBit_eq_false_of_lt
      calc d < 2 ^ 51 := hd
        _ ≤ 2 ^ i := Nat.pow_le_pow_right (by norm_num) (by omega)
    simp [hi, ha', hge, hd']

/-- The round trip that actually holds: a range record survives the codec
exactly when the start fits in 51 bits and the delta fits in the 37 bits left
in an 11-byte record. -/
theorem decode_encodeRange (a d : ℕ) (ha : a < 2 ^ 51) (hd : d < 2 ^ 37) :
    decode_sat_range (encodeRangeBytes a d) = (a, a + d) := by
  have hmlt : a ||| d <<< 51 < 2 ^ 88 := by
    have h := Nat.append_lt ha hd
    rw [Nat.lor_comm] at h
    exact h
  have h88 : (256 : ℕ) ^ 11 = 2 ^ 88 := by norm_num
  have hd51 : d < 2 ^ 51 := lt_of_lt_of_le hd (Nat.pow_le_pow_right (by norm_num) (by norm_num))
  simp only [decode_sat_range, encodeRangeBytes]
  rw [bytesToNat_leBytes, h88, Nat.mod_eq_of_lt hmlt,
    mod_two_pow_51_of_lor a d ha, div_two_pow_51_of_lor a d ha hd51]


/-! ### Lexicographic order lemmas -/

theorem bytesLt_irrefl (x : List ℕ) : bytesLt x x = false := by
  induction x with
  | nil => rfl
  | cons a as ih =>
    simp only [bytesLt, ih, Bool.and_false, Bool.or_false]
    by_contra hc
    rw [Bool.not_eq_false] at hc
    exact absurd (Nat.blt_eq ▸ hc) (lt_irrefl a)

/-! ### Table lemmas -/

theorem tget_tins_self {α : Type} (t : Tbl α) (k : List ℕ) (v : α) :
    tget (tins t k v) k = some v := by
  induction t with
  | nil => simp [tins, tget, List.find?]
  | cons p rest ih =>
    obtain ⟨k', v'⟩ := p
    simp only [tins]
    by_cases h1 : bytesLt k k'
    · simp [h1, tget, List.find?]
    · by_cases h2 : k = k'
      · subst h2
        simp [bytesLt_irrefl, tget, List.find?]
      · have hne : (k' == k) = false := by
          simp only [beq_eq_false_iff_ne, ne_eq]
          exact fun h => h2 h.symm
        simp only [h1, if_false, h2, tget, List.find?, hne]
        exact ih

theorem tget_tins_ne {α : Type} (t : Tbl α) (k k' : List ℕ) (v : α)
    (h : k' ≠ k) : tget (tins t k v) k' = tget t k' := by
  have hk : (k == k') = false := by
    simp only [beq_eq_false_iff_ne, ne_eq]
    exact fun hh => h hh.symm
  induction t with
  | nil => simp [tins, tget, List.find?, hk]
  | cons p rest ih =>
    obtain ⟨k0, v0⟩ := p
    simp only [tins]
    by_cases h1 : bytesLt k k0
    · simp [h1, tget, List.find?, hk]
    · by_cases h2 : k = k0
      · subst h2
        simp [h1, tget, List.find?, hk]
      · simp only [h1, if_false, h2, tget, List.find?]
        by_cases h3 : k0 == k'
        · simp [h3]
        · simp only [h3]
          exact ih

theorem tget_trem_self {α : Type} (t : Tbl α) (k : List ℕ) :
    tget (trem t k) k = none := by
  induction t with
  | nil => rfl
  | cons p rest ih =>
    obtain ⟨k0, v0⟩ := p
    simp only [trem] at ih ⊢
    by_cases h0 : k0 = k
    · rw [List.filter_cons_of_neg (by simp [h0])]
      exact ih
    · rw [List.filter_cons_of_pos (by simp [h0])]
      simp only [tget]
      rw [List.find?_cons_of_neg _ (by simp [h0])]
      exact ih

theorem tget_trem_ne {α : Type} (t : Tbl α) (k k' : List ℕ)
    (h : k' ≠ k) : tget (trem t k) k' = tget t k' := by
  induction t with
  | nil => rfl
  | cons p rest ih =>
    obtain ⟨k0, v0⟩ := p
    simp only [trem] at ih ⊢
    by_cases h0 : k0 = k
    · rw [List.filter_cons_of_neg (by simp [h0])]
      rw [ih]
      simp only [tget]
      rw [List.find?_cons_of_neg _ (by simp only [h0, beq_iff_eq]; exact fun hh => h hh.symm)]
    · rw [List.filter_cons_of_pos (by simp [h0])]
      simp only [tget]
      by_cases h1 : k0 = k'
      · rw [List.find?_cons_of_pos _ (by simp [h1]), List.find?_cons_of_pos _ (by simp [h1])]
      · rw [List.find?_cons_of_neg _ (by simp [h1]), List.find?_cons_of_neg _ (by simp [h1])]
        exact ih

theorem ntget_ntins_self {α : Type} (t : NTbl α) (k : ℕ) (v : α) :
    ntget (ntins t k v) k = some v := by
  simp [ntget, ntins, List.find?]

theorem ntget_ntins_ne {α : Type} (t : NTbl α) (k k' : ℕ) (v : α)
    (h : k' ≠ k) : ntget (ntins t k v) k' = ntget t k' := by
  simp only [ntget, ntins]
  rw [List.find?_cons_of_neg _ (by simp only [beq_iff_eq]; exact fun hh => h hh.symm)]
  induction t with
  | nil => rfl
  | cons p rest ih =>
    obtain ⟨k0, v0⟩ := p
    by_cases h0 : k0 = k
    · rw [List.filter_cons_of_neg (by simp [h0])]
      rw [ih]
      rw [List.find?_cons_of_neg _ (by simp only [h0, beq_iff_eq]; exact fun hh => h hh.symm)]
    · rw [List.filter_cons_of_pos (by simp [h0])]
      by_cases h1 : k0 = k'
      · rw [List.find?_cons_of_pos _ (by simp [h1]), List.find?_cons_of_pos _ (by simp [h1])]
      · rw [List.find?_cons_of_neg _ (by simp [h1]), List.find?_cons_of_neg _ (by simp [h1])]
        exact ih

/-- Keys present in a byte-keyed table. -/
def tkeys {α : Type} (t : Tbl α) : List (List ℕ) :=
  t.map Prod.fst

theorem mem_tscan {α : Type} (t : Tbl α) (lo hi : List ℕ) (p : List ℕ × α) :
    p ∈ tscan t lo hi ↔
      p ∈ t ∧ bytesLt p.1 lo = false ∧ bytesLt hi p.1 = false := by
  simp [tscan, List.mem_filter]

/-- Membership and lookup agree on tables with distinct keys. -/
theorem tget_of_mem {α : Type} {t : Tbl α} (hnd : (tkeys t).Nodup)
    {p : List ℕ × α} (hp : p ∈ t) : tget t p.1 = some p.2 := by
  induction t with
  | nil => cases hp
  | cons q rest ih =>
    simp only [tkeys, List.map_cons, List.nodup_cons] at hnd
    rcases List.mem_cons.1 hp with h | h
    · subst h
      simp [tget, List.find?]
    · have hne : (q.1 == p.1) = false := by
        simp only [beq_eq_false_iff_ne, ne_eq]
        intro hc
        exact hnd.1 (hc ▸ List.mem_map_of_mem Prod.fst h)
      simp only [tget, List.find?, hne]
      exact ih hnd.2 h

theorem mem_of_tget {α : Type} {t : Tbl α} {k : List ℕ} {v : α}
    (h : tget t k = some v) : (k, v) ∈ t := by
  induction t with
  | nil => simp [tget] at h
  | cons q rest ih =>
    obtain ⟨k0, v0⟩ := q
    by_cases hq : k0 = k
    · subst hq
      simp only [tget] at h
      rw [List.find?_cons_of_pos _ (by simp)] at h
      have hv : v0 = v := by simpa using h
      subst hv
      exact List.mem_cons_self _ _
    · simp only [tget] at h ⊢
      rw [List.find?_cons_of_neg _ (by simp [hq])] at h
      exact List.mem_cons_of_mem _ (ih h)

/-- Lexicographic comparison of equal-length concatenations decomposes:
first the left parts, then the right parts. -/
theorem bytesLt_append (x x' y y' : List ℕ) (hlen : x.length = x'.length) :
    bytesLt (x ++ y) (x' ++ y') =
      (bytesLt x x' || (x == x' && bytesLt y y')) := by
  induction x generalizing x' with
  | nil =>
    cases x' with
    | nil => simp [bytesLt]
    | cons b bs => simp at hlen
  | cons a as ih =>
    cases x' with
    | nil => simp at hlen
    | cons b bs =>
      simp only [List.length_cons, Nat.succ_inj] at hlen
      simp only [List.cons_append, bytesLt, ih bs hlen]
      by_cases hab : a = b
      · subst hab
        have hblt : a.blt a = false := by
          by_contra hcon
          rw [Bool.not_eq_false] at hcon
          have := Nat.blt_eq ▸ hcon
          omega
        by_cases htl : as = bs
        · subst htl
          simp only [hblt, bytesLt_irrefl, beq_self_eq_true, Bool.true_and,
            Bool.false_or, List.append_eq]
          rw [ih as hlen]
          simp [bytesLt_irrefl]
        · have hf : (as == bs) = false := by simpa using htl
          have hfc : ((a :: as : List ℕ) == a :: bs) = false := by
            simp [htl]
          simp only [hblt, hf, hfc, beq_self_eq_true, Bool.true_and,
            Bool.false_or, Bool.false_and, Bool.or_false, Bool.and_false,
            List.append_eq]
          rw [ih bs hlen]
          simp [hf]
      · have h1 : (a == b) = false := by simpa using hab
        have h1c : ((a :: as : List ℕ) == b :: bs) = false := by
          simp [hab]
        simp [h1, h1c, bytesLt]

/-- Nothing is lexicographically below the all-zero string of its length. -/
theorem bytesLt_zeros (y z : List ℕ) (hz : ∀ b ∈ z, b = 0)
    (hlen : y.length = z.length) : bytesLt y z = false := by
  induction y generalizing z with
  | nil =>
    cases z with
    | nil => rfl
    | cons c cs => simp at hlen
  | cons a as ih =>
    cases z with
    | nil => simp at hlen
    | cons c cs =>
      simp only [List.length_cons, Nat.succ_inj] at hlen
      have hc : c = 0 := hz c (List.mem_cons_self c cs)
      subst hc
      simp only [bytesLt, Bool.or_eq_false_iff, Bool.and_eq_false_iff]
      constructor
      · by_contra hcon
        rw [Bool.not_eq_false] at hcon
        have := Nat.blt_eq ▸ hcon
        omega
      · by_cases ha : a = 0
        · right
          exact ih cs (fun b hb => hz b (List.mem_cons_of_mem _ hb)) hlen
        · left
          simpa using ha

/-- Nothing whose bytes are below 256 lies lexicographically above the
all-255 string of its length. -/
theorem bytesLt_maxs (z y : List ℕ) (hz : ∀ b ∈ z, b = 255)
    (hy : ∀ b ∈ y, b < 256) (hlen : y.length = z.length) :
    bytesLt z y = false := by
  induction y generalizing z with
  | nil =>
    cases z with
    | nil => rfl
    | cons c cs => simp at hlen
  | cons a as ih =>
    cases z with
    | nil => simp at hlen
    | cons c cs =>
      simp only [List.length_cons, Nat.succ_inj] at hlen
      have hc : c = 255 := hz c (List.mem_cons_self c cs)
      subst hc
      have ha : a < 256 := hy a (List.mem_cons_self a as)
      simp only [bytesLt, Bool.or_eq_false_iff, Bool.and_eq_false_iff]
      constructor
      · by_contra hcon
        rw [Bool.not_eq_false] at hcon
        have := Nat.blt_eq ▸ hcon
        omega
      · by_cases hq : (255 : ℕ) = a
        · right
          exact ih cs (fun b hb => hz b (List.mem_cons_of_mem _ hb))
            (fun b hb => hy b (List.mem_cons_of_mem _ hb)) hlen
        · left
          simpa using hq

/-- Equal-length strings unrelated by `bytesLt` in either direction are
equal. -/
theorem bytesLt_antisymm (x y : List ℕ) (hlen : x.length = y.length)
    (h1 : bytesLt x y = false) (h2 : bytesLt y x = false) : x = y := by
  induction x generalizing y with
  | nil =>
    cases y with
    | nil => rfl
    | cons b bs => simp at hlen
  | cons a as ih =>
    cases y with
    | nil => simp at hlen
    | cons b bs =>
      simp only [List.length_cons, Nat.succ_inj] at hlen
      simp only [bytesLt, Bool.or_eq_false_iff, Bool.and_eq_false_iff] at h1 h2
      have hab : a = b := by
        have n1 : ¬ a < b := by
          intro hc
          have hb : a.blt b = true := by
            rw [Nat.blt_eq]
            exact hc
          have hcontra := h1.1
          rw [hb] at hcontra
          simp at hcontra
        have n2 : ¬ b < a := by
          intro hc
          have hb : b.blt a = true := by
            rw [Nat.blt_eq]
            exact hc
          have hcontra := h2.1
          rw [hb] at hcontra
          simp at hcontra
        omega
      subst hab
      have htl : bytesLt as bs = false := by
        rcases h1.2 with h | h
        · simp at h
        · exact h
      have htl' : bytesLt bs as = false := by
        rcases h2.2 with h | h
        · simp at h
        · exact h
      rw [ih bs hlen htl htl']

/-! ### Key-codec facts -/

theorem encode_outpoint_length (o : OutPoint) :
    (encode_outpoint o).length = 36 := by
  simp [encode_outpoint, leBytes_length]

theorem encode_satpoint_length (p : SatPoint) :
    (encode_satpoint p).length = 44 := by
  simp [encode_satpoint, encode_outpoint_length, leBytes_length]

theorem encode_outpoint_inj {o o' : OutPoint} (h1 : OPWf o) (h2 : OPWf o')
    (h : encode_outpoint o = encode_outpoint o') : o = o' := by
  have hsplit := List.append_inj h (by rw [leBytes_length, leBytes_length])
  obtain ⟨ht, hv⟩ := hsplit
  have e1 : (256 : ℕ) ^ 32 = 2 ^ 256 := by norm_num
  have e2 : (256 : ℕ) ^ 4 = 2 ^ 32 := by norm_num
  obtain ⟨t, v⟩ := o
  obtain ⟨t', v'⟩ := o'
  obtain ⟨hta, hva⟩ := h1
  obtain ⟨htb, hvb⟩ := h2
  simp only at hta hva htb hvb
  have : t = t' := leBytes_inj (e1 ▸ hta) (e1 ▸ htb) ht
  have : v = v' := leBytes_inj (e2 ▸ hva) (e2 ▸ hvb) hv
  simp_all

theorem encode_satpoint_inj {p p' : SatPoint} (h1 : SPWf p) (h2 : SPWf p')
    (h : encode_satpoint p = encode_satpoint p') : p = p' := by
  have hsplit := List.append_inj h
    (by rw [encode_outpoint_length, encode_outpoint_length])
  obtain ⟨ho, hf⟩ := hsplit
  have e3 : (256 : ℕ) ^ 8 = 2 ^ 64 := by norm_num
  obtain ⟨op, ofs⟩ := p
  obtain ⟨op', ofs'⟩ := p'
  obtain ⟨hoa, hfa⟩ := h1
  obtain ⟨hob, hfb⟩ := h2
  simp only at hoa hfa hob hfb
  have : op = op' := encode_outpoint_inj hoa hob ho
  have : ofs = ofs' := leBytes_inj (e3 ▸ hfa) (e3 ▸ hfb) hf
  simp_all

theorem leBytes_zero_all (k : ℕ) : ∀ b ∈ leBytes k 0, b = 0 := by
  induction k with
  | zero => simp [leBytes]
  | succ k ih =>
    intro b hb
    simp only [leBytes, Nat.zero_mod, Nat.zero_div, List.mem_cons] at hb
    rcases hb with h | h
    · exact h
    · exact ih b h

theorem leBytes_u64max_all : ∀ b ∈ leBytes 8 U64MAX, b = 255 := by
  decide

/-- A well-formed satpoint key lies in the scan interval of `prev` (from
offset `0` to offset `u64::MAX`) exactly when its outpoint is `prev`. -/
theorem satpoint_in_scan_iff (prev : OutPoint) (q : SatPoint)
    (hq : SPWf q) (hp : OPWf prev) :
    (bytesLt (encode_satpoint q) (encode_satpoint ⟨prev, 0⟩) = false ∧
     bytesLt (encode_satpoint ⟨prev, U64MAX⟩) (encode_satpoint q) = false) ↔
    q.outpoint = prev := by
  obtain ⟨op, ofs⟩ := q
  simp only [encode_satpoint]
  rw [bytesLt_append _ _ _ _ (by rw [encode_outpoint_length, encode_outpoint_length]),
    bytesLt_append _ _ _ _ (by rw [encode_outpoint_length, encode_outpoint_length])]
  constructor
  · rintro ⟨hlo, hhi⟩
    simp only [Bool.or_eq_false_iff, Bool.and_eq_false_iff] at hlo hhi
    have heq : encode_outpoint op = encode_outpoint prev :=
      bytesLt_antisymm _ _ (by rw [encode_outpoint_length, encode_outpoint_length])
        hlo.1 hhi.1
    exact encode_outpoint_inj hq.1 hp heq
  · intro heq
    simp only at heq
    subst heq
    have hz : bytesLt (leBytes 8 ofs) (leBytes 8 0) = false :=
      bytesLt_zeros _ _ (leBytes_zero_all 8) (by rw [leBytes_length, leBytes_length])
    have hm : bytesLt (leBytes 8 U64MAX) (leBytes 8 ofs) = false :=
      bytesLt_maxs _ _ leBytes_u64max_all (leBytes_lt 8 ofs)
        (by rw [leBytes_length, leBytes_length])
    simp [bytesLt_irrefl, hz, hm]

/-! ## Claims -/

/-- C3 counterexample: the claim's round trip fails at the range
`(0, 2 ^ 37)`, whose delta satisfies the claimed bound `b − a < 2 ^ 51` yet
does not survive the 11-byte record: the encoder shifts the delta past the
88 persisted bits and decoding returns `(0, 0)`. -/
theorem range_codec_claim_cex :
    ((2 : ℕ) ^ 37 - 0 < 2 ^ 51) ∧
      decode_sat_range (encodeRangeBytes 0 (2 ^ 37 - 0)) ≠ (0, 2 ^ 37) := by
  constructor
  · norm_num
  · decide

/-- C3 (amended): for any range `(a, b)` with `a < 2 ^ 51`, `a ≤ b` and
`b − a < 2 ^ 37`, decoding the 11-byte record produced by encoding `(a, b)`
returns exactly `(a, b)`.  (The claim's bound `b − a < 2 ^ 51` is too weak:
only 37 bits of delta fit an 11-byte record beside a 51-bit start.) -/
theorem range_codec_roundtrip (a b : ℕ) (h1 : a < 2 ^ 51) (h2 : a ≤ b)
    (h3 : b - a < 2 ^ 37) :
    decode_sat_range (encodeRangeBytes a (b - a)) = (a, b) := by
  rw [decode_encodeRange a (b - a) h1 h3]
  have hab : a + (b - a) = b := by omega
  rw [hab]

/-- C3 witness: the amended round trip at the concrete range `(100, 250)`. -/
theorem range_codec_roundtrip_witness :
    ((100 : ℕ) < 2 ^ 51 ∧ (100 : ℕ) ≤ 250 ∧ (250 : ℕ) - 100 < 2 ^ 37) ∧
      decode_sat_range (encodeRangeBytes 100 (250 - 100)) = (100, 250) :=
  ⟨⟨by norm_num, by norm_num, by norm_num⟩,
    range_codec_roundtrip 100 250 (by norm_num) (by norm_num) (by norm_num)⟩

/-- C4: rehydrating one input consults the cache first — on a cache hit the
entry is removed from the cache (`HashMap::remove`), the table is untouched
and `outputs_cached` is bumped; on a cache miss the row is removed from
`OUTPOINT_TO_RANGES`; and the call fails — necessarily with
`MissingOutpoint` — exactly when the outpoint is absent from both.
(`index_block` invokes `takeRanges` for every input of every non-coinbase
transaction via `rehydrate`.) -/
theorem rehydrate_cache_first (u : Updater) (s : Store) (prev : OutPoint) :
    (∀ v, tget u.cache (encode_outpoint prev) = some v →
      takeRanges u s prev =
        .ok (v, { u with cache := trem u.cache (encode_outpoint prev), outputs_cached := u.outputs_cached + 1 }, s)) ∧
    (tget u.cache (encode_outpoint prev) = none →
      ∀ v, tget s.outpointToSatRanges (encode_outpoint prev) = some v →
        takeRanges u s prev =
          .ok (v, u, { s with outpointToSatRanges := trem s.outpointToSatRanges (encode_outpoint prev) })) ∧
    ((∃ e, takeRanges u s prev = .error e) ↔
      (tget u.cache (encode_outpoint prev) = none ∧
       tget s.outpointToSatRanges (encode_outpoint prev) = none)) ∧
    (∀ e, takeRanges u s prev = .error e → e = Err.missingOutpoint) := by
  refine ⟨?_, ?_, ?_, ?_⟩
  · intro v hv
    simp [takeRanges, hv]
  · intro hc v hv
    simp [takeRanges, hc, hv]
  · constructor
    · rintro ⟨e, he⟩
      simp only [takeRanges] at he
      cases hc : tget u.cache (encode_outpoint prev) with
      | some v => simp [hc] at he
      | none =>
        cases ht : tget s.outpointToSatRanges (encode_outpoint prev) with
        | some v => simp [hc, ht] at he
        | none => exact ⟨rfl, rfl⟩
    · rintro ⟨hc, ht⟩
      exact ⟨Err.missingOutpoint, by simp [takeRanges, hc, ht]⟩
  · intro e he
    simp only [takeRanges] at he
    cases hc : tget u.cache (encode_outpoint prev) with
    | some v => simp [hc] at he
    | none =>
      cases ht : tget s.outpointToSatRanges (encode_outpoint prev) with
      | some v => simp [hc, ht] at he
      | none =>
        simp [hc, ht] at he
        exact he.symm

/-- C4 witness: a concrete cache hit — the range list is served and removed
from the cache and the table is untouched. -/
theorem rehydrate_cache_first_witness :
    takeRanges uC4 emptyStore ⟨1, 0⟩ =
      .ok ([7], { uC4 with cache := trem uC4.cache (encode_outpoint ⟨1, 0⟩), outputs_cached := uC4.outputs_cached + 1 }, emptyStore) :=
  (rehydrate_cache_first uC4 emptyStore ⟨1, 0⟩).1 [7] rfl

/-! ### Retry-loop lemmas -/

theorem retries_sleeps_glue (k e : ℕ) (sl : List ℕ) :
    (sl ++ [2 ^ (e + 1)]) ++ (List.range k).map (fun t => 2 ^ (e + 2 + t)) =
      sl ++ (List.range (k + 1)).map (fun t => 2 ^ (e + 1 + t)) := by
  rw [List.append_assoc]
  congr 1
  rw [List.range_succ_eq_map, List.map_cons, List.map_map]
  simp only [List.singleton_append, Function.comp]
  congr 1
  apply List.map_congr_left
  intro t ht
  congr 1
  omega

theorem retriesAux_ok (c : FetchClient) (height : ℕ) (wt : Bool)
    (r : Option Block) :
    ∀ k i e sl, (∀ j, j < k → fetchOnce c (i + j) height wt = .error ()) →
      e + k ≤ 6 → fetchOnce c (i + k) height wt = .ok r →
      retriesAux false c height wt i e sl =
        (.ok r, sl ++ (List.range k).map (fun t => 2 ^ (e + 1 + t))) := by
  intro k
  induction k with
  | zero =>
    intro i e sl hfail hle hok
    rw [retriesAux]
    simp only [Nat.add_zero] at hok
    simp [hok]
  | succ k ih =>
    intro i e sl hfail hle hok
    rw [retriesAux]
    have h0 : fetchOnce c (i + 0) height wt = .error () := hfail 0 (by omega)
    simp only [Nat.add_zero] at h0
    rw [h0]
    simp only [Bool.false_eq_true, if_false]
    have hsec : ¬ (1 <<< (e + 1) > 120) := by
      rw [Nat.one_shiftLeft, Nat.not_lt]
      calc (2 : ℕ) ^ (e + 1) ≤ 2 ^ 6 := Nat.pow_le_pow_right (by norm_num) (by omega)
        _ ≤ 120 := by norm_num
    rw [if_neg hsec]
    have hrec := ih (i + 1) (e + 1) (sl ++ [1 <<< (e + 1)])
      (fun j hj => by
        have := hfail (j + 1) (by omega)
        rwa [show i + (j + 1) = i + 1 + j by omega] at this)
      (by omega)
      (by rwa [show i + 1 + k = i + (k + 1) by omega])
    rw [hrec, Nat.one_shiftLeft]
    rw [retries_sleeps_glue]

theorem retriesAux_giveup (c : FetchClient) (height : ℕ) (wt : Bool) :
    ∀ n e i sl, e + n = 6 →
      (∀ j, j ≤ n → fetchOnce c (i + j) height wt = .error ()) →
      retriesAux false c height wt i e sl =
        (.error (), sl ++ (List.range n).map (fun t => 2 ^ (e + 1 + t))) := by
  intro n
  induction n with
  | zero =>
    intro e i sl he hfail
    rw [retriesAux]
    have h0 := hfail 0 (by omega)
    simp only [Nat.add_zero] at h0
    rw [h0]
    simp only [Bool.false_eq_true, if_false]
    have hsec : (1 <<< (e + 1) > 120) := by
      rw [Nat.one_shiftLeft]
      have : e + 1 = 7 := by omega
      rw [this]
      norm_num
    rw [if_pos hsec]
    simp
  | succ n ih =>
    intro e i sl he hfail
    rw [retriesAux]
    have h0 := hfail 0 (by omega)
    simp only [Nat.add_zero] at h0
    rw [h0]
    simp only [Bool.false_eq_true, if_false]
    have hsec : ¬ (1 <<< (e + 1) > 120) := by
      rw [Nat.one_shiftLeft, Nat.not_lt]
      calc (2 : ℕ) ^ (e + 1) ≤ 2 ^ 6 := Nat.pow_le_pow_right (by norm_num) (by omega)
        _ ≤ 120 := by norm_num
    rw [if_neg hsec]
    have hrec := ih (e + 1) (i + 1) (sl ++ [1 <<< (e + 1)])
      (by omega)
      (fun j hj => by
        have := hfail (j + 1) (by omega)
        rwa [show i + (j + 1) = i + 1 + j by omega] at this)
    rw [hrec, Nat.one_shiftLeft]
    rw [retries_sleeps_glue]

/-- C8: the retry loop of `get_block_with_retries`.
In tests a transport failure is returned at once with no sleeping.  Outside
tests, the `k`-th retry is preceded by a `2^k`-second sleep, and the loop
gives up — returning the error — exactly when the next backoff `2^e` would
exceed 120 seconds, i.e. after seven consecutive failures with sleep trace
`[2, 4, 8, 16, 32, 64]`; a success after `k ≤ 6` failures returns the fetched
result with exactly those `k` sleeps.  On success the payload is `none` when
the source reports no hash at that height, the full block when
`with_transactions` is true, and the bare header with an empty transaction
list otherwise. -/
theorem fetch_retries_spec (c : FetchClient) (height : ℕ) (wt : Bool) :
    (fetchOnce c 0 height wt = .error () →
      get_block_with_retries true c height wt = (.error (), [])) ∧
    ((∀ j, j ≤ 6 → fetchOnce c j height wt = .error ()) →
      get_block_with_retries false c height wt =
        (.error (), [2, 4, 8, 16, 32, 64])) ∧
    (∀ k r, k ≤ 6 → (∀ j, j < k → fetchOnce c j height wt = .error ()) →
      fetchOnce c k height wt = .ok r →
      get_block_with_retries false c height wt =
        (.ok r, (List.range k).map (fun t => 2 ^ (t + 1)))) ∧
    (∀ i, c.hashAt i height = .ok none → fetchOnce c i height wt = .ok none) ∧
    (∀ i hsh b, c.hashAt i height = .ok (some hsh) → c.blockOf i hsh = .ok b →
      fetchOnce c i height true = .ok (some b)) ∧
    (∀ i hsh hd, c.hashAt i height = .ok (some hsh) →
      c.headerOf i hsh = .ok hd →
      fetchOnce c i height false = .ok (some { header := hd, txdata := [] })) := by
  refine ⟨?_, ?_, ?_, ?_, ?_, ?_⟩
  · intro h
    rw [get_block_with_retries, retriesAux, h]
    simp
  · intro h
    rw [get_block_with_retries,
      retriesAux_giveup c height wt 6 0 0 [] (by omega) (fun j hj => by
        simpa using h j hj)]
    simp only [List.nil_append]
    congr 1
  · intro k r hk hfail hok
    rw [get_block_with_retries,
      retriesAux_ok c height wt r k 0 0 [] (fun j hj => by simpa using hfail j hj)
        (by omega) (by simpa using hok)]
    simp only [List.nil_append]
    congr 1
    apply List.map_congr_left
    intro t ht
    congr 1
    omega
  · intro i h
    simp [fetchOnce, h]
  · intro i hsh b h hb
    simp [fetchOnce, h, hb]
  · intro i hsh hd h hh
    simp [fetchOnce, h, hh]

/-- C8 witness: a client that fails twice then succeeds with no block at the
height; the loop sleeps 2 then 4 seconds and returns `none`. -/
theorem fetch_retries_spec_witness :
    get_block_with_retries false
      ⟨fun i _ => if i < 2 then .error () else .ok none,
       fun _ _ => .error (), fun _ _ => .error ()⟩ 5 true =
      (.ok none, [2, 4]) := by
  have h := ((fetch_retries_spec
    ⟨fun i _ => if i < 2 then .error () else .ok none,
     fun _ _ => .error (), fun _ _ => .error ()⟩ 5 true).2.2.1) 2 none
    (by norm_num)
    (fun j hj => by
      interval_cases j <;> rfl)
    rfl
  rw [h]
  rfl

/-- C9: commit is idempotent relative to the empty cache it leaves behind.
A second `commit` right after a first one (satoshi indexing on) flushes
nothing into `OUTPOINT_TO_RANGES`, adds zero to the `OutputsTraversed` and
`SatRanges` statistics, leaves the updater and every other table as they
were, and only bumps the `Commits` statistic by one. -/
theorem commit_idempotent (u : Updater) (s : Store)
    (hsat : u.index_satoshis = true) :
    (commit (commit u s).1 (commit u s).2).1 = (commit u s).1 ∧
    (commit (commit u s).1 (commit u s).2).2.outpointToSatRanges =
      (commit u s).2.outpointToSatRanges ∧
    (commit (commit u s).1 (commit u s).2).2.heightToHash =
      (commit u s).2.heightToHash ∧
    (commit (commit u s).1 (commit u s).2).2.satToSatpoint =
      (commit u s).2.satToSatpoint ∧
    (commit (commit u s).1 (commit u s).2).2.satToInsId =
      (commit u s).2.satToInsId ∧
    (commit (commit u s).1 (commit u s).2).2.id2sat =
      (commit u s).2.id2sat ∧
    (commit (commit u s).1 (commit u s).2).2.sat2id =
      (commit u s).2.sat2id ∧
    ntgetD (commit (commit u s).1 (commit u s).2).2.stats StatOutputsTraversed 0 =
      ntgetD (commit u s).2.stats StatOutputsTraversed 0 ∧
    ntgetD (commit (commit u s).1 (commit u s).2).2.stats StatSatRanges 0 =
      ntgetD (commit u s).2.stats StatSatRanges 0 ∧
    ntgetD (commit (commit u s).1 (commit u s).2).2.stats StatCommits 0 =
      ntgetD (commit u s).2.stats StatCommits 0 + 1 := by
  simp only [commit, hsat, if_true, List.foldl_nil, increment_statistic]
  refine ⟨trivial, trivial, trivial, trivial, trivial, trivial, trivial, ?_, ?_, ?_⟩
  · simp only [ntgetD, ntget_ntins_ne _ StatCommits StatOutputsTraversed _ (by decide),
      ntget_ntins_ne _ StatSatRanges StatOutputsTraversed _ (by decide),
      ntget_ntins_self]
    simp
  · simp only [ntgetD, ntget_ntins_ne _ StatCommits StatSatRanges _ (by decide),
      ntget_ntins_self,
      ntget_ntins_ne _ StatOutputsTraversed StatSatRanges _ (by decide)]
    simp
  · simp only [ntgetD, ntget_ntins_self,
      ntget_ntins_ne _ StatSatRanges StatCommits _ (by decide),
      ntget_ntins_ne _ StatOutputsTraversed StatCommits _ (by decide)]
    simp

/-- C9 witness: the two-commit equalities at a concrete populated updater. -/
theorem commit_idempotent_witness :
    uC4.index_satoshis = true ∧
    (commit (commit uC4 emptyStore).1 (commit uC4 emptyStore).2).1 =
      (commit uC4 emptyStore).1 ∧
    ntgetD (commit (commit uC4 emptyStore).1 (commit uC4 emptyStore).2).2.stats
        StatCommits 0 =
      ntgetD (commit uC4 emptyStore).2.stats StatCommits 0 + 1 :=
  ⟨rfl, (commit_idempotent uC4 emptyStore rfl).1,
    (commit_idempotent uC4 emptyStore rfl).2.2.2.2.2.2.2.2.2⟩

/-- C10: a zero-value output is satisfied without popping any input range —
even from an empty deque, with no `InsufficientInputs` error — and still
installs a cache entry for its outpoint whose `RangeList` is empty, which
trivially sums to the output's value 0. -/
theorem zero_value_output (insc : Transaction → Bool) (common : ℕ → Bool)
    (ins : List TxIn) (txid : ℕ) (ranges : List (ℕ × ℕ))
    (u : Updater) (s : Store) (w t : ℕ) :
    ∃ pay, index_transaction_sats insc common ⟨ins, [⟨0⟩]⟩ txid ranges u s w t =
        .ok pay ∧
      pay.1 = ranges ∧
      tget pay.2.1.cache (encode_outpoint ⟨txid, 0⟩) = some [] ∧
      sumDeltas (decodeRangeList []) = 0 := by
  have houts : ∀ s' : Store, outputsLoop common txid [⟨0⟩] 0 ranges u s' w t =
      .ok (ranges,
        { u with cache := tins u.cache (encode_outpoint ⟨txid, 0⟩) [], outputs_inserted_since_flush := u.outputs_inserted_since_flush + 1 },
        s', w, t + 1) := by
    intro s'
    simp only [outputsLoop]
    rw [assignLoop.eq_def]
    simp only [if_pos rfl]
    rfl
  rw [index_transaction_sats]
  exact ⟨_, houts _, rfl, tget_tins_self _ _ _, rfl⟩

/-! ### Field-preservation lemmas -/

theorem migrateHit_foldl_satToInsId (txid : ℕ) :
    ∀ (hl : List (List ℕ × List ℕ)) (s1 : Store),
      (hl.foldl (migrateHit txid) s1).satToInsId = s1.satToInsId := by
  intro hl
  induction hl with
  | nil => intro s1; rfl
  | cons x xs ih =>
    intro s1
    rw [List.foldl_cons, ih]
    rfl

theorem moveInput_foldl_satToInsId (txid : ℕ) :
    ∀ (l : List TxIn) (s0 : Store),
      (l.foldl (moveInput txid) s0).satToInsId = s0.satToInsId := by
  intro l
  induction l with
  | nil => intro s0; rfl
  | cons x xs ih =>
    intro s0
    rw [List.foldl_cons, ih, moveInput, migrateHit_foldl_satToInsId]

theorem inscriptions_keep_satToInsId (insc : Transaction → Bool)
    (tx : Transaction) (txid : ℕ) (s : Store) :
    (index_transaction_inscriptions insc tx txid s).2.satToInsId =
      s.satToInsId := by
  simp only [index_transaction_inscriptions]
  rw [moveInput_foldl_satToInsId]
  by_cases h : insc tx
  · simp [h]
  · simp [h]

/-- Frame of the assignment loop: on success it leaves the cache and every
store table except `SAT_TO_SATPOINT` untouched, and its only error is
`InsufficientInputs`. -/
theorem assignLoop_frame (common : ℕ → Bool) (txid vout value : ℕ) :
    ∀ (ranges : List (ℕ × ℕ)) (remaining : ℕ) (sats : List ℕ)
      (u : Updater) (s : Store) (w : ℕ),
      (∀ pay, assignLoop common txid vout value ranges remaining sats u s w =
          .ok pay →
        pay.2.2.2.1.satToInsId = s.satToInsId ∧ pay.2.2.1.cache = u.cache) ∧
      (∀ e, assignLoop common txid vout value ranges remaining sats u s w =
          .error e → e = Err.insufficientInputs) := by
  intro ranges remaining sats u s w
  induction ranges, remaining, sats, u, s, w using
    assignLoop.induct common txid vout value with
  | case1 ranges sats u s w =>
    constructor
    · intro pay hpay
      rw [assignLoop.eq_def] at hpay
      simp only [if_pos rfl] at hpay
      cases hpay
      exact ⟨rfl, rfl⟩
    · intro e he
      rw [assignLoop.eq_def] at he
      simp only [if_pos rfl] at he
      cases he
  | case2 remaining sats u s w hrem =>
    constructor
    · intro pay hpay
      rw [assignLoop.eq_def] at hpay
      simp only [if_neg hrem] at hpay
      cases hpay
    · intro e he
      rw [assignLoop.eq_def] at he
      simp only [if_neg hrem] at he
      cases he
      rfl
  | case3 remaining sats u s w hrem a b rest s1 count hcount middle u1 ih =>
    have hcount' : b - a > remaining := hcount
    constructor
    · intro pay hpay
      rw [assignLoop.eq_def] at hpay
      simp only [if_neg hrem, if_pos hcount'] at hpay
      obtain ⟨h1, h2⟩ := ih.1 pay hpay
      refine ⟨h1.trans ?_, h2⟩
      unfold s1
      by_cases hc : common a
      · simp [hc]
      · simp [hc]
    · intro e he
      rw [assignLoop.eq_def] at he
      simp only [if_neg hrem, if_pos hcount'] at he
      exact ih.2 e he
  | case4 remaining sats u s w hrem a b rest s1 count hcount ih =>
    have hcount' : ¬ (b - a > remaining) := hcount
    constructor
    · intro pay hpay
      rw [assignLoop.eq_def] at hpay
      simp only [if_neg hrem, if_neg hcount'] at hpay
      obtain ⟨h1, h2⟩ := ih.1 pay hpay
      refine ⟨h1.trans ?_, h2⟩
      unfold s1
      by_cases hc : common a
      · simp [hc]
      · simp [hc]
    · intro e he
      rw [assignLoop.eq_def] at he
      simp only [if_neg hrem, if_neg hcount'] at he
      exact ih.2 e he

/-- Frame of the outputs loop: on success `SAT_TO_INSCRIPTION_ID` is
untouched, and its only error is `InsufficientInputs`. -/
theorem outputsLoop_frame (common : ℕ → Bool) (txid : ℕ) :
    ∀ (outs : List TxOut) (vout : ℕ) (ranges : List (ℕ × ℕ))
      (u : Updater) (s : Store) (w t : ℕ),
      (∀ pay, outputsLoop common txid outs vout ranges u s w t = .ok pay →
        pay.2.2.1.satToInsId = s.satToInsId) ∧
      (∀ e, outputsLoop common txid outs vout ranges u s w t = .error e →
        e = Err.insufficientInputs) := by
  intro outs
  induction outs with
  | nil =>
    intro vout ranges u s w t
    constructor
    · intro pay hpay
      simp only [outputsLoop] at hpay
      cases hpay
      rfl
    · intro e he
      simp only [outputsLoop] at he
      cases he
  | cons o rest ih =>
    intro vout ranges u s w t
    constructor
    · intro pay hpay
      simp only [outputsLoop] at hpay
      cases hassign : assignLoop common txid vout o.value ranges o.value [] u s w with
      | error e =>
        rw [hassign] at hpay
        cases hpay
      | ok q =>
        rw [hassign] at hpay
        obtain ⟨r2, sats2, u2, s2, w2⟩ := q
        simp only at hpay
        have h1 := (ih _ _ _ _ _ _).1 _ hpay
        have h2 := ((assignLoop_frame common txid vout o.value _ _ _ _ _ _).1
          _ hassign).1
        rw [h1]
        exact h2
    · intro e he
      simp only [outputsLoop] at he
      cases hassign : assignLoop common txid vout o.value ranges o.value [] u s w with
      | error e2 =>
        rw [hassign] at he
        cases he
        exact (assignLoop_frame common txid vout o.value _ _ _ _ _ _).2 _ hassign
      | ok q =>
        rw [hassign] at he
        obtain ⟨r2, sats2, u2, s2, w2⟩ := q
        simp only at he
        exact (ih _ _ _ _ _ _).2 _ he

/-- C7: when the transaction inscribes and the input deque is nonempty, the
start of the deque's front range — as it stands before output assignment pops
anything — is recorded in `SAT_TO_INSCRIPTION_ID` under the inscribing txid:
on success the final table is exactly the pre-assignment insert (output
assignment neither adds, removes, nor overwrites entries of this table), so
the recorded start is the pre-pop front even when assignment then consumes
that range. -/
theorem sat_to_inscription_front (insc : Transaction → Bool)
    (common : ℕ → Bool) (tx : Transaction) (txid a b : ℕ)
    (rest : List (ℕ × ℕ)) (u : Updater) (s : Store) (w t : ℕ)
    (h1 : insc tx = true) :
    ∀ pay, index_transaction_sats insc common tx txid ((a, b) :: rest) u s w t =
        .ok pay →
      pay.2.2.1.satToInsId =
        ntins s.satToInsId a (idBytes txid) ∧
      ntget pay.2.2.1.satToInsId a = some (idBytes txid) := by
  intro pay hpay
  simp only [index_transaction_sats] at hpay
  rw [show (index_transaction_inscriptions insc tx txid s).1 = insc tx from rfl,
    h1] at hpay
  simp only [if_pos rfl, List.head?_cons] at hpay
  have hout := (outputsLoop_frame common txid tx.output 0 ((a, b) :: rest) u _ w t).1
    pay hpay
  rw [hout]
  have hins : (index_transaction_inscriptions insc tx txid s).2.satToInsId =
      s.satToInsId := inscriptions_keep_satToInsId insc tx txid s
  constructor
  · show ntins (index_transaction_inscriptions insc tx txid s).2.satToInsId a
        (idBytes txid) = ntins s.satToInsId a (idBytes txid)
    rw [hins]
  · show ntget (ntins (index_transaction_inscriptions insc tx txid s).2.satToInsId a
        (idBytes txid)) a = some (idBytes txid)
    exact ntget_ntins_self _ _ _

/-- C7 witness: a concrete inscribing transaction with one 60-sat output and
input deque `[(100, 200)]` — after the call, sat 100 maps to the txid even
though assignment consumed (and split) that very range. -/
theorem c7call_eval : c7call = .ok c7pay := by
  rw [c7call, index_transaction_sats]
  simp only [index_transaction_inscriptions, inscAlways, tx7, emptyStore,
    List.foldl_nil, List.head?_cons, if_true, eq_self_iff_true]
  simp only [outputsLoop]
  rw [assignLoop.eq_def]
  simp only [commonAll, Bool.not_true, Bool.false_eq_true, if_false]
  norm_num
  rw [assignLoop.eq_def]
  norm_num
  rfl

theorem sat_to_inscription_front_witness :
    inscAlways tx7 = true ∧
    ntget c7pay.2.2.1.satToInsId 100 = some (idBytes 1) :=
  ⟨rfl, (sat_to_inscription_front inscAlways commonAll tx7 1 100 200 []
    uFresh emptyStore 0 0 rfl c7pay c7call_eval).2⟩

/-! ### Error-kind lemmas -/

theorem takeRanges_err (u : Updater) (s : Store) (prev : OutPoint) :
    ∀ e, takeRanges u s prev = .error e → e = Err.missingOutpoint := by
  intro e he
  simp only [takeRanges] at he
  cases hc : tget u.cache (encode_outpoint prev) with
  | some v => simp [hc] at he
  | none =>
    cases ht : tget s.outpointToSatRanges (encode_outpoint prev) with
    | some v => simp [hc, ht] at he
    | none =>
      simp [hc, ht] at he
      exact he.symm

theorem rehydrate_err :
    ∀ (inputs : List TxIn) (u : Updater) (s : Store) (acc : List (ℕ × ℕ)) e,
      rehydrate u s inputs acc = .error e → e = Err.missingOutpoint := by
  intro inputs
  induction inputs with
  | nil =>
    intro u s acc e he
    simp only [rehydrate] at he
    cases he
  | cons txin rest ih =>
    intro u s acc e he
    simp only [rehydrate] at he
    cases htr : takeRanges u s txin.previous_output with
    | error e2 =>
      rw [htr] at he
      cases he
      exact takeRanges_err u s txin.previous_output _ htr
    | ok q =>
      rw [htr] at he
      obtain ⟨sr, u2, s2⟩ := q
      simp only at he
      exact ih _ _ _ _ he

theorem index_transaction_sats_err (insc : Transaction → Bool)
    (common : ℕ → Bool) (tx : Transaction) (txid : ℕ)
    (ranges : List (ℕ × ℕ)) (u : Updater) (s : Store) (w t : ℕ) :
    ∀ e, index_transaction_sats insc common tx txid ranges u s w t = .error e →
      e = Err.insufficientInputs := by
  intro e he
  simp only [index_transaction_sats] at he
  exact (outputsLoop_frame common txid tx.output 0 ranges u _ w t).2 e he

theorem blockTxLoop_err (insc : Transaction → Bool) (common : ℕ → Bool) :
    ∀ (txs : List (Transaction × ℕ)) (u : Updater) (s : Store)
      (cb : List (ℕ × ℕ)) (w ob : ℕ) e,
      blockTxLoop insc common txs u s cb w ob = .error e →
        e = Err.insufficientInputs ∨ e = Err.missingOutpoint := by
  intro txs
  induction txs with
  | nil =>
    intro u s cb w ob e he
    simp only [blockTxLoop] at he
    cases he
  | cons p rest ih =>
    intro u s cb w ob e he
    obtain ⟨tx, txid⟩ := p
    simp only [blockTxLoop] at he
    cases hr : rehydrate u s tx.input [] with
    | error e2 =>
      rw [hr] at he
      cases he
      exact Or.inr (rehydrate_err tx.input u s [] _ hr)
    | ok q =>
      rw [hr] at he
      obtain ⟨isr, u2, s2⟩ := q
      simp only at he
      cases hs : index_transaction_sats insc common tx txid isr u2 s2 w ob with
      | error e3 =>
        rw [hs] at he
        cases he
        exact Or.inl (index_transaction_sats_err insc common tx txid isr u2 s2 w ob _ hs)
      | ok q2 =>
        rw [hs] at he
        obtain ⟨lo, u3, s3, w3, ob3⟩ := q2
        simp only at he
        exact ih _ _ _ _ _ _ he

theorem index_block_work_err (insc : Transaction → Bool) (common : ℕ → Bool)
    (u : Updater) (s : Store) (block : BlockData) :
    ∀ e, index_block_work insc common u s block = .error e →
      e = Err.insufficientInputs ∨ e = Err.missingOutpoint := by
  intro e he
  simp only [index_block_work] at he
  by_cases hsat : u.index_satoshis = true
  · rw [if_pos hsat] at he
    cases hbl : blockTxLoop insc common (List.drop 1 block.txdata)
        (if subsidy u.height > 0 then { u with sat_ranges_since_flush := u.sat_ranges_since_flush + 1 } else u)
        s (if subsidy u.height > 0 then [(starting_sat u.height, starting_sat u.height + subsidy u.height)] else [])
        0 0 with
    | error e2 =>
      rw [hbl] at he
      cases he
      exact blockTxLoop_err insc common _ _ _ _ _ _ _ hbl
    | ok q =>
      rw [hbl] at he
      obtain ⟨u2, s2, cb, w2, ob2⟩ := q
      simp only at he
      cases hhd : block.txdata.head? with
      | none =>
        rw [hhd] at he
        cases he
      | some pr =>
        rw [hhd] at he
        obtain ⟨tx, txid⟩ := pr
        simp only at he
        cases hcs : index_transaction_sats insc common tx txid cb u2 s2 w2 ob2 with
        | error e3 =>
          rw [hcs] at he
          cases he
          exact Or.inl (index_transaction_sats_err insc common _ _ _ _ _ _ _ _ hcs)
        | ok q2 =>
          rw [hcs] at he
          obtain ⟨lo, u3, s3, w3, ob3⟩ := q2
          simp only at he
          cases he
  · rw [if_neg hsat] at he
    cases he

/-- C2: the reorg guard.  For a block at height `h > 0` whose stored parent
hash differs from the incoming `prev_blockhash`, `index_block` returns the
`ReorgDetected` error carrying the *unchanged* store (the guard runs before
any write) and the `reorged` flag set to `true`.  When the hashes agree, no
`ReorgDetected` error can be produced by the rest of the call. -/
theorem reorg_guard (insc : Transaction → Bool) (common : ℕ → Bool)
    (u : Updater) (s : Store) (reorged : Bool) (block : BlockData)
    (hh : u.height > 0) :
    (∀ ph, ntget s.heightToHash (u.height - 1) = some ph →
      ph ≠ block.header.prev_blockhash →
      index_block insc common u s reorged block = .error (Err.reorg, s, true)) ∧
    (∀ ph, ntget s.heightToHash (u.height - 1) = some ph →
      ph = block.header.prev_blockhash →
      ∀ p, index_block insc common u s reorged block = .error p →
        p.1 ≠ Err.reorg) := by
  have hh0 : ¬ (u.height = 0) := by omega
  constructor
  · intro ph hget hne
    rw [index_block]
    simp only [if_neg hh0, hget, if_pos hne]
  · intro ph hget heq p hp
    rw [index_block] at hp
    simp only [if_neg hh0, hget,
      if_neg (show ¬ (ph ≠ block.header.prev_blockhash) from by simp [heq])] at hp
    split at hp
    · rename_i e2 hw
      cases hp
      rcases index_block_work_err insc common u s block _ hw with h | h <;>
        simp [h]
    · cases hp

/-- C2 witness: at height 1 with stored parent hash 5 and incoming parent
hash 9, `index_block` returns the reorg error with the store unchanged and
the `reorged` flag set. -/
theorem reorg_guard_witness :
    index_block inscNever commonAll uC2 sC2 false blockC2 =
      .error (Err.reorg, sC2, true) :=
  (reorg_guard inscNever commonAll uC2 sC2 false blockC2 (by norm_num [uC2])).1 5
    rfl (by norm_num [blockC2])

/-! ### RangeList arithmetic lemmas -/

theorem chunks11_encode_cons (a d : ℕ) (rest : List ℕ) :
    chunks11 (encodeRangeBytes a d ++ rest) =
      encodeRangeBytes a d :: chunks11 rest := rfl

theorem decodeRangeList_encode_cons (a d : ℕ) (rest : List ℕ)
    (ha : a < 2 ^ 51) (hd : d < 2 ^ 37) :
    decodeRangeList (encodeRangeBytes a d ++ rest) =
      (a, a + d) :: decodeRangeList rest := by
  rw [decodeRangeList, chunks11_encode_cons, List.map_cons,
    decode_encodeRange a d ha hd]
  rfl

theorem sumDeltas_cons (x y : ℕ) (l : List (ℕ × ℕ)) :
    sumDeltas ((x, y) :: l) = (y - x) + sumDeltas l := by
  simp [sumDeltas]

theorem sumDeltas_nil : sumDeltas [] = 0 := rfl

theorem rangesTotal_cons (x y : ℕ) (l : List (ℕ × ℕ)) :
    rangesTotal ((x, y) :: l) = (y - x) + rangesTotal l := by
  simp [rangesTotal]

theorem rangesTotal_nil : rangesTotal [] = 0 := rfl

theorem decodeRangeList_nil : decodeRangeList [] = [] := rfl

/-! ### The assignment procedure establishes the value invariant -/

theorem assignLoop_spec (common : ℕ → Bool) (txid vout value : ℕ) :
    ∀ (ranges : List (ℕ × ℕ)) (remaining : ℕ) (sats : List ℕ)
      (u : Updater) (s : Store) (w : ℕ),
      (∀ r ∈ ranges, RangeWf r) → remaining ≤ rangesTotal ranges →
      ∃ rs tail u' s' w',
        assignLoop common txid vout value ranges remaining sats u s w =
          .ok (rs, sats ++ tail, u', s', w') ∧
        sumDeltas (decodeRangeList tail) = remaining ∧
        (∀ r ∈ rs, RangeWf r) ∧
        rangesTotal rs + remaining = rangesTotal ranges := by
  intro ranges remaining sats u s w
  induction ranges, remaining, sats, u, s, w using
    assignLoop.induct common txid vout value with
  | case1 ranges sats u s w =>
    intro hwf hle
    refine ⟨ranges, [], u, s, w, ?_, rfl, hwf, by omega⟩
    rw [assignLoop.eq_def]
    simp
  | case2 remaining sats u s w hrem =>
    intro hwf hle
    rw [rangesTotal_nil] at hle
    omega
  | case3 remaining sats u s w hrem a b rest s1 count hcount middle u1 ih =>
    intro hwf hle
    have hcount' : b - a > remaining := hcount
    have hwfa : RangeWf (a, b) := hwf _ (List.mem_cons_self _ _)
    obtain ⟨hab, hb51, hd37⟩ := hwfa
    simp only at hab hb51 hd37
    have hwf' : ∀ r ∈ (a + remaining, b) :: rest, RangeWf r := by
      intro r hr
      rcases List.mem_cons.1 hr with h | h
      · subst h
        exact ⟨by omega, hb51, by omega⟩
      · exact hwf _ (List.mem_cons_of_mem _ h)
    obtain ⟨rs, tail, u', s', w', hcall, hsum, hwfrs, htot⟩ :=
      ih hwf' (by omega)
    refine ⟨rs, encodeRangeBytes a (a + remaining - a) ++ tail, u', s', w',
      ?_, ?_, hwfrs, ?_⟩
    · rw [assignLoop.eq_def]
      simp only [if_neg hrem, if_pos hcount']
      rw [← List.append_assoc]
      exact hcall
    · rw [decodeRangeList_encode_cons _ _ _ (by omega) (by omega),
        sumDeltas_cons, hsum]
      omega
    · rw [rangesTotal_cons] at htot ⊢
      omega
  | case4 remaining sats u s w hrem a b rest s1 count hcount ih =>
    intro hwf hle
    have hcount' : ¬ (b - a > remaining) := hcount
    have hwfa : RangeWf (a, b) := hwf _ (List.mem_cons_self _ _)
    obtain ⟨hab, hb51, hd37⟩ := hwfa
    simp only at hab hb51 hd37
    have hwf' : ∀ r ∈ rest, RangeWf r := fun r hr =>
      hwf _ (List.mem_cons_of_mem _ hr)
    rw [rangesTotal_cons] at hle
    obtain ⟨rs, tail, u', s', w', hcall, hsum, hwfrs, htot⟩ :=
      ih hwf' (by omega)
    refine ⟨rs, encodeRangeBytes a (b - a) ++ tail, u', s', w', ?_, ?_,
      hwfrs, ?_⟩
    · rw [assignLoop.eq_def]
      simp only [if_neg hrem, if_neg hcount']
      rw [← List.append_assoc]
      exact hcall
    · rw [decodeRangeList_encode_cons _ _ _ (by omega) (by omega),
        sumDeltas_cons, hsum]
      omega
    · rw [rangesTotal_cons]
      omega

theorem encode_outpoint_vout_ne (txid v1 v2 : ℕ) (h1 : v1 < 2 ^ 32)
    (h2 : v2 < 2 ^ 32) (hne : v1 ≠ v2) :
    encode_outpoint ⟨txid, v1⟩ ≠ encode_outpoint ⟨txid, v2⟩ := by
  intro h
  have e2 : (256 : ℕ) ^ 4 = 2 ^ 32 := by norm_num
  have hsplit := List.append_inj h (by simp [leBytes_length])
  exact hne (leBytes_inj (e2 ▸ h1) (e2 ▸ h2) hsplit.2)

theorem outputsLoop_spec (common : ℕ → Bool) (txid : ℕ) :
    ∀ (outs : List TxOut) (vout0 : ℕ) (ranges : List (ℕ × ℕ))
      (u : Updater) (s : Store) (w t : ℕ),
      (∀ r ∈ ranges, RangeWf r) →
      txOutTotal outs ≤ rangesTotal ranges →
      vout0 + outs.length ≤ 2 ^ 32 →
      ∃ rs u' s' w' t',
        outputsLoop common txid outs vout0 ranges u s w t =
          .ok (rs, u', s', w', t') ∧
        (∀ i (hi : i < outs.length), ∃ v,
          tget u'.cache (encode_outpoint ⟨txid, vout0 + i⟩) = some v ∧
          sumDeltas (decodeRangeList v) = (outs.get ⟨i, hi⟩).value) ∧
        (∀ k, (∀ i, i < outs.length → k ≠ encode_outpoint ⟨txid, vout0 + i⟩) →
          tget u'.cache k = tget u.cache k) ∧
        (∀ r ∈ rs, RangeWf r) ∧
        rangesTotal rs + txOutTotal outs = rangesTotal ranges := by
  intro outs
  induction outs with
  | nil =>
    intro vout0 ranges u s w t hwf hle hv
    refine ⟨ranges, u, s, w, t, ?_, ?_, ?_, hwf, ?_⟩
    · simp [outputsLoop]
    · intro i hi
      simp at hi
    · intro k hk
      rfl
    · simp [txOutTotal]
  | cons o rest ih =>
    intro vout0 ranges u s w t hwf hle hv
    have hle0 : o.value ≤ rangesTotal ranges := by
      simp only [txOutTotal, List.map_cons, List.sum_cons] at hle
      omega
    obtain ⟨rs1, tail, u1, s1, w1, hcall, hsum, hwf1, htot1⟩ :=
      assignLoop_spec common txid vout0 o.value ranges o.value [] u s w hwf hle0
    have hcache1 : u1.cache = u.cache :=
      ((assignLoop_frame common txid vout0 o.value ranges o.value [] u s w).1
        _ hcall).2
    have hle' : txOutTotal rest ≤ rangesTotal rs1 := by
      simp only [txOutTotal, List.map_cons, List.sum_cons] at hle
      simp only [txOutTotal]
      omega
    obtain ⟨rs, u', s', w', t', hcall2, hget2, hpres2, hwf2, htot2⟩ :=
      ih (vout0 + 1) rs1
        { u1 with cache := tins u1.cache (encode_outpoint ⟨txid, vout0⟩) ([] ++ tail),
                  outputs_inserted_since_flush := u1.outputs_inserted_since_flush + 1 }
        s1 w1 (t + 1) hwf1 hle' (by simp at hv ⊢; omega)
    refine ⟨rs, u', s', w', t', ?_, ?_, ?_, hwf2, ?_⟩
    · simp only [outputsLoop]
      rw [hcall]
      exact hcall2
    · intro i hi
      cases i with
      | zero =>
        refine ⟨[] ++ tail, ?_, ?_⟩
        · rw [hpres2 _ ?_]
          · simp only [Nat.add_zero]
            exact tget_tins_self _ _ _
          · intro j hj
            simp only [Nat.add_zero]
            apply encode_outpoint_vout_ne
            · simp at hv
              omega
            · simp at hv hj
              omega
            · omega
        · simp [hsum]
      | succ j =>
        have hj : j < rest.length := by
          simp at hi
          omega
        obtain ⟨v, hva, hvb⟩ := hget2 j hj
        refine ⟨v, ?_, ?_⟩
        · rwa [show vout0 + 1 + j = vout0 + (j + 1) by omega] at hva
        · rwa [List.get_cons_succ]
    · intro k hk
      rw [hpres2 _ ?_]
      · rw [tget_tins_ne, hcache1]
        exact hk 0 (by simp)
      · intro j hj
        have := hk (j + 1) (by simp; omega)
        rwa [show vout0 + (j + 1) = vout0 + 1 + j by omega] at this
    · simp only [txOutTotal, List.map_cons, List.sum_cons]
      simp only [txOutTotal] at htot2
      omega

theorem tget_foldl_tins_not_mem {α : Type} :
    ∀ (l : Tbl α) (t : Tbl α) (k : List ℕ), k ∉ tkeys l →
      tget (l.foldl (fun t2 q => tins t2 q.1 q.2) t) k = tget t k := by
  intro l
  induction l with
  | nil => intro t k hk; rfl
  | cons p rest ih =>
    intro t k hk
    simp only [tkeys, List.map_cons, List.mem_cons] at hk
    push_neg at hk
    rw [List.foldl_cons, ih _ _ (by simpa [tkeys] using hk.2),
      tget_tins_ne _ _ _ _ hk.1]

theorem tget_foldl_tins_mem {α : Type} :
    ∀ (l : Tbl α) (t : Tbl α) (k : List ℕ) (v : α), (tkeys l).Nodup →
      tget l k = some v →
      tget (l.foldl (fun t2 q => tins t2 q.1 q.2) t) k = some v := by
  intro l
  induction l with
  | nil =>
    intro t k v hnd h
    simp [tget] at h
  | cons p rest ih =>
    intro t k v hnd h
    obtain ⟨k0, v0⟩ := p
    simp only [tkeys, List.map_cons, List.nodup_cons] at hnd
    by_cases hk : k0 = k
    · subst hk
      simp only [tget] at h
      rw [List.find?_cons_of_pos _ (by simp)] at h
      have hv : v0 = v := by simpa using h
      rw [List.foldl_cons,
        tget_foldl_tins_not_mem rest _ _ (by simpa [tkeys] using hnd.1),
        tget_tins_self, hv]
    · simp only [tget] at h
      rw [List.find?_cons_of_neg _ (by simp [hk])] at h
      rw [List.foldl_cons]
      exact ih _ _ _ hnd.2 h

/-- C1: the sat-range value invariant.  Given a well-formed input deque whose
total covers the transaction's outputs, `index_transaction_sats` succeeds and
installs, for every output, a cache `RangeList` whose decoded deltas sum to
exactly that output's value; all unrelated cache keys are untouched (so the
invariant for other live outpoints is preserved); removing a spent key
(`trem`) leaves every other key's value — and hence its invariant —
unchanged; and `commit` flushes every cache entry verbatim into
`OUTPOINT_TO_RANGES`, preserving the recorded `RangeList` of each outpoint. -/
theorem sat_range_value_invariant (insc : Transaction → Bool)
    (common : ℕ → Bool) (tx : Transaction) (txid : ℕ)
    (ranges : List (ℕ × ℕ)) (u : Updater) (s : Store) (w t : ℕ)
    (hwf : ∀ r ∈ ranges, RangeWf r)
    (hsum : txOutTotal tx.output ≤ rangesTotal ranges)
    (hvout : tx.output.length ≤ 2 ^ 32) :
    (∃ pay, index_transaction_sats insc common tx txid ranges u s w t =
        .ok pay ∧
      (∀ i (hi : i < tx.output.length), ∃ v,
        tget pay.2.1.cache (encode_outpoint ⟨txid, i⟩) = some v ∧
        sumDeltas (decodeRangeList v) = (tx.output.get ⟨i, hi⟩).value) ∧
      (∀ k, (∀ i, i < tx.output.length → k ≠ encode_outpoint ⟨txid, i⟩) →
        tget pay.2.1.cache k = tget u.cache k)) ∧
    (∀ (t2 : Tbl (List ℕ)) (k k' : List ℕ), k' ≠ k →
      tget (trem t2 k) k' = tget t2 k') ∧
    (∀ (u2 : Updater) (s2 : Store), u2.index_satoshis = true →
      (tkeys u2.cache).Nodup →
      ∀ k v, tget u2.cache k = some v →
        tget (commit u2 s2).2.outpointToSatRanges k = some v) := by
  refine ⟨?_, ?_, ?_⟩
  · obtain ⟨rs, u', s', w', t', hcall, hget, hpres, hwfrs, htot⟩ :=
      outputsLoop_spec common txid tx.output 0 ranges u _ w t hwf hsum
        (by omega)
    refine ⟨(rs, u', s', w', t'), ?_, ?_, ?_⟩
    · rw [index_transaction_sats]
      exact hcall
    · intro i hi
      obtain ⟨v, hva, hvb⟩ := hget i hi
      rw [Nat.zero_add] at hva
      exact ⟨v, hva, hvb⟩
    · intro k hk
      apply hpres
      intro i hi
      rw [Nat.zero_add]
      exact hk i hi
  · intro t2 k k' hne
    exact tget_trem_ne t2 k k' hne
  · intro u2 s2 hsat hnd k v hv
    simp only [commit, hsat, if_true]
    exact tget_foldl_tins_mem u2.cache s2.outpointToSatRanges k v hnd hv

/-- C1 witness: the spec's split example — deque `[(100, 200)]` feeding
outputs of 30 and 70 sats; output 0 gets `[(100, 130)]`, output 1 gets
`[(130, 200)]`, each summing to its value. -/
theorem sat_range_value_invariant_witness :
    ((∀ r ∈ [((100 : ℕ), (200 : ℕ))], RangeWf r) ∧
      txOutTotal [⟨30⟩, ⟨70⟩] ≤ rangesTotal [(100, 200)] ∧
      ([⟨(30 : ℕ)⟩, ⟨70⟩] : List TxOut).length ≤ 2 ^ 32) ∧
    (∃ pay, index_transaction_sats inscNever commonAll ⟨[], [⟨30⟩, ⟨70⟩]⟩ 2
        [(100, 200)] uFresh emptyStore 0 0 = .ok pay ∧
      (∀ i (hi : i < ([⟨(30 : ℕ)⟩, ⟨70⟩] : List TxOut).length), ∃ v,
        tget pay.2.1.cache (encode_outpoint ⟨2, i⟩) = some v ∧
        sumDeltas (decodeRangeList v) =
          (([⟨(30 : ℕ)⟩, ⟨70⟩] : List TxOut).get ⟨i, hi⟩).value) ∧
      (∀ k, (∀ i, i < ([⟨(30 : ℕ)⟩, ⟨70⟩] : List TxOut).length →
          k ≠ encode_outpoint ⟨2, i⟩) →
        tget pay.2.1.cache k = tget uFresh.cache k)) :=
  ⟨⟨by norm_num [RangeWf], by decide, by decide⟩,
    (sat_range_value_invariant inscNever commonAll ⟨[], [⟨30⟩, ⟨70⟩]⟩ 2
      [(100, 200)] uFresh emptyStore 0 0 (by norm_num [RangeWf]) (by decide)
      (by decide)).1⟩

/-! ### Key-set lemmas -/

theorem mem_tins_sub {α : Type} :
    ∀ (t : Tbl α) (k : List ℕ) (v : α) (p : List ℕ × α),
      p ∈ tins t k v → p = (k, v) ∨ p ∈ t := by
  intro t k v
  induction t with
  | nil =>
    intro p hp
    simp only [tins, List.mem_singleton] at hp
    exact Or.inl hp
  | cons q rest ih =>
    intro p hp
    obtain ⟨k0, v0⟩ := q
    simp only [tins] at hp
    by_cases h1 : bytesLt k k0
    · rw [if_pos h1] at hp
      rcases List.mem_cons.1 hp with h | h
      · exact Or.inl h
      · exact Or.inr h
    · rw [if_neg h1] at hp
      by_cases h2 : k = k0
      · rw [if_pos h2] at hp
        rcases List.mem_cons.1 hp with h | h
        · exact Or.inl h
        · exact Or.inr (List.mem_cons_of_mem _ h)
      · rw [if_neg h2] at hp
        rcases List.mem_cons.1 hp with h | h
        · exact Or.inr (h ▸ List.mem_cons_self _ _)
        · rcases ih p h with h' | h'
          · exact Or.inl h'
          · exact Or.inr (List.mem_cons_of_mem _ h')

theorem tkeys_tins_sub {α : Type} (t : Tbl α) (k : List ℕ) (v : α) :
    ∀ k' ∈ tkeys (tins t k v), k' = k ∨ k' ∈ tkeys t := by
  intro k' hk'
  simp only [tkeys, List.mem_map] at hk'
  obtain ⟨p, hp, hpk⟩ := hk'
  rcases mem_tins_sub t k v p hp with h | h
  · left
    rw [← hpk, h]
  · right
    exact hpk ▸ List.mem_map_of_mem Prod.fst h

theorem bytesLt_trans :
    ∀ x y z : List ℕ, bytesLt x y = true → bytesLt y z = true →
      bytesLt x z = true := by
  intro x
  induction x with
  | nil =>
    intro y z hxy hyz
    cases z with
    | nil =>
      cases y with
      | nil => cases hxy
      | cons b bs => cases hyz
    | cons c cs => rfl
  | cons a as ih =>
    intro y z hxy hyz
    cases y with
    | nil => cases hxy
    | cons b bs =>
      cases z with
      | nil => cases hyz
      | cons c cs =>
        simp only [bytesLt, Bool.or_eq_true, Bool.and_eq_true, beq_iff_eq,
          Nat.blt_eq] at hxy hyz ⊢
        rcases hxy with h1 | ⟨h1e, h1t⟩
        · rcases hyz with h2 | ⟨h2e, h2t⟩
          · exact Or.inl (by omega)
          · subst h2e
            exact Or.inl h1
        · subst h1e
          rcases hyz with h2 | ⟨h2e, h2t⟩
          · exact Or.inl h2
          · subst h2e
            exact Or.inr ⟨rfl, ih bs cs h1t h2t⟩

/-- Strings unrelated by `bytesLt` in either direction are equal (the order
is connex). -/
theorem bytesLt_connex :
    ∀ x y : List ℕ, bytesLt x y = false → bytesLt y x = false → x = y := by
  intro x
  induction x with
  | nil =>
    intro y h1 h2
    cases y with
    | nil => rfl
    | cons b bs => cases h1
  | cons a as ih =>
    intro y h1 h2
    cases y with
    | nil => cases h2
    | cons b bs =>
      simp only [bytesLt, Bool.or_eq_false_iff, Bool.and_eq_false_iff] at h1 h2
      have hab : a = b := by
        have n1 := h1.1
        have n2 := h2.1
        rw [Bool.eq_false_iff] at n1 n2
        simp only [ne_eq, Nat.blt_eq] at n1 n2
        omega
      subst hab
      have t1 : bytesLt as bs = false := by
        rcases h1.2 with h | h
        · simp at h
        · exact h
      have t2 : bytesLt bs as = false := by
        rcases h2.2 with h | h
        · simp at h
        · exact h
      rw [ih bs t1 t2]

theorem TblSorted_nodup {α : Type} (t : Tbl α) (h : TblSorted t) :
    (tkeys t).Nodup := by
  have h2 : (t.map Prod.fst).Pairwise (fun a b => a ≠ b) := by
    rw [List.pairwise_map]
    refine h.imp ?_
    intro p q hpq hc
    rw [hc, bytesLt_irrefl] at hpq
    cases hpq
  exact h2

theorem TblSorted_tins {α : Type} :
    ∀ (t : Tbl α) (k : List ℕ) (v : α), TblSorted t →
      TblSorted (tins t k v) := by
  intro t k v
  induction t with
  | nil =>
    intro hs
    simp [tins, TblSorted]
  | cons q rest ih =>
    intro hs
    obtain ⟨k0, v0⟩ := q
    rw [TblSorted, List.pairwise_cons] at hs
    obtain ⟨hhead, htail⟩ := hs
    simp only [tins]
    by_cases h1 : bytesLt k k0
    · rw [if_pos h1]
      rw [TblSorted, List.pairwise_cons]
      refine ⟨?_, ?_⟩
      · intro p hp
        rcases List.mem_cons.1 hp with h | h
        · rw [h]
          exact h1
        · exact bytesLt_trans _ _ _ h1 (hhead p h)
      · rw [List.pairwise_cons]
        exact ⟨hhead, htail⟩
    · by_cases h2 : k = k0
      · rw [if_neg h1, if_pos h2]
        rw [TblSorted, List.pairwise_cons]
        subst h2
        exact ⟨hhead, htail⟩
      · rw [if_neg h1, if_neg h2]
        rw [TblSorted, List.pairwise_cons]
        constructor
        · intro p hp
          rcases mem_tins_sub rest k v p hp with h | h
          · rw [h]
            simp only
            cases hk : bytesLt k0 k with
            | true => rfl
            | false =>
              exact absurd (bytesLt_connex k k0 (by simpa using h1) hk) h2
          · exact hhead p h
        · exact ih htail

theorem TblSorted_trem {α : Type} (t : Tbl α) (k : List ℕ)
    (h : TblSorted t) : TblSorted (trem t k) :=
  List.Pairwise.sublist (List.filter_sublist t) h

theorem mem_trem_sub {α : Type} (t : Tbl α) (k : List ℕ)
    (p : List ℕ × α) (hp : p ∈ trem t k) : p ∈ t :=
  List.mem_of_mem_filter hp

theorem mem_tscan_sub {α : Type} (t : Tbl α) (lo hi : List ℕ)
    (p : List ℕ × α) (hp : p ∈ tscan t lo hi) : p ∈ t :=
  List.mem_of_mem_filter hp

theorem tscan_keys_nodup {α : Type} (t : Tbl α) (lo hi : List ℕ)
    (h : (tkeys t).Nodup) : (tkeys (tscan t lo hi)).Nodup := by
  refine List.Nodup.sublist ?_ h
  exact List.Sublist.map Prod.fst (List.filter_sublist t)

/-! ### Inscription-migration lemmas -/

theorem migrateHit_step (txid : ℕ) (htx : txid < 2 ^ 256) (s : Store)
    (old idv : List ℕ)
    (hs : TblSorted s.sat2id) (hk : SatKeysWf s.sat2id)
    (hinv : InvPair s.sat2id s.id2sat)
    (hmem : tget s.sat2id old = some idv) (hne : old ≠ newSatKey txid) :
    TblSorted (migrateHit txid s (old, idv)).sat2id ∧
    SatKeysWf (migrateHit txid s (old, idv)).sat2id ∧
    InvPair (migrateHit txid s (old, idv)).sat2id
      (migrateHit txid s (old, idv)).id2sat ∧
    (∀ k, k ≠ newSatKey txid → k ≠ old →
      tget (migrateHit txid s (old, idv)).sat2id k = tget s.sat2id k) ∧
    tget (migrateHit txid s (old, idv)).sat2id old = none ∧
    tget (migrateHit txid s (old, idv)).id2sat idv = some (newSatKey txid) ∧
    (∀ w, tget s.id2sat w = some (newSatKey txid) →
      tget (migrateHit txid s (old, idv)).id2sat w = some (newSatKey txid)) ∧
    (∀ v, tget (migrateHit txid s (old, idv)).sat2id (newSatKey txid) = some v →
      v = idv ∨ tget s.sat2id (newSatKey txid) = some v) := by
  have hsat2id : (migrateHit txid s (old, idv)).sat2id =
      tins (trem s.sat2id old) (newSatKey txid) idv := rfl
  have hid2sat : (migrateHit txid s (old, idv)).id2sat =
      tins s.id2sat idv (newSatKey txid) := rfl
  refine ⟨?_, ?_, ?_, ?_, ?_, ?_, ?_, ?_⟩
  · rw [hsat2id]
    exact TblSorted_tins _ _ _ (TblSorted_trem _ _ hs)
  · rw [hsat2id]
    intro p hp
    rcases mem_tins_sub _ _ _ p hp with h | h
    · refine ⟨⟨⟨txid, 0⟩, 0⟩, ⟨⟨htx, by norm_num⟩, by norm_num⟩, ?_⟩
      rw [h]
      rfl
    · exact hk p (mem_trem_sub _ _ _ h)
  · rw [hsat2id, hid2sat]
    intro k v hv
    by_cases hkn : k = newSatKey txid
    · subst hkn
      rw [tget_tins_self] at hv
      cases hv
      rw [tget_tins_self]
    · rw [tget_tins_ne _ _ _ _ hkn] at hv
      by_cases hko : k = old
      · subst hko
        rw [tget_trem_self] at hv
        cases hv
      · rw [tget_trem_ne _ _ _ hko] at hv
        have hvi : v ≠ idv := by
          intro hc
          subst hc
          have h1 := hinv _ _ hv
          have h2 := hinv _ _ hmem
          rw [h1] at h2
          cases h2
          exact hko rfl
        rw [tget_tins_ne _ _ _ _ hvi]
        exact hinv _ _ hv
  · intro k hk1 hk2
    rw [hsat2id, tget_tins_ne _ _ _ _ hk1, tget_trem_ne _ _ _ hk2]
  · rw [hsat2id, tget_tins_ne _ _ _ _ hne, tget_trem_self]
  · rw [hid2sat, tget_tins_self]
  · intro w hw
    rw [hid2sat]
    by_cases hwv : w = idv
    · subst hwv
      rw [tget_tins_self]
    · rw [tget_tins_ne _ _ _ _ hwv]
      exact hw
  · intro v hv
    rw [hsat2id, tget_tins_self] at hv
    cases hv
    exact Or.inl rfl

theorem migrate_fold (txid : ℕ) (htx : txid < 2 ^ 256) :
    ∀ (hits : List (List ℕ × List ℕ)) (s : Store),
      TblSorted s.sat2id →
      SatKeysWf s.sat2id →
      InvPair s.sat2id s.id2sat →
      (∀ h ∈ hits, tget s.sat2id h.1 = some h.2) →
      (∀ h ∈ hits, h.1 ≠ newSatKey txid) →
      (hits.map Prod.fst).Nodup →
      (TblSorted (hits.foldl (migrateHit txid) s).sat2id ∧
       SatKeysWf (hits.foldl (migrateHit txid) s).sat2id ∧
       InvPair (hits.foldl (migrateHit txid) s).sat2id
         (hits.foldl (migrateHit txid) s).id2sat) ∧
      (∀ h ∈ hits,
        tget (hits.foldl (migrateHit txid) s).sat2id h.1 = none ∧
        tget (hits.foldl (migrateHit txid) s).id2sat h.2 =
          some (newSatKey txid)) ∧
      (∀ k, k ≠ newSatKey txid → k ∉ hits.map Prod.fst →
        tget (hits.foldl (migrateHit txid) s).sat2id k = tget s.sat2id k) ∧
      (∀ w, tget s.id2sat w = some (newSatKey txid) →
        tget (hits.foldl (migrateHit txid) s).id2sat w =
          some (newSatKey txid)) ∧
      (∀ v, tget (hits.foldl (migrateHit txid) s).sat2id (newSatKey txid) =
          some v →
        v ∈ hits.map Prod.snd ∨ tget s.sat2id (newSatKey txid) = some v) := by
  intro hits
  induction hits with
  | nil =>
    intro s hs hk hinv hmem hnn hnd
    refine ⟨⟨hs, hk, hinv⟩, ?_, ?_, ?_, ?_⟩
    · intro h hh
      cases hh
    · intro k h1 h2
      rfl
    · intro w hw
      exact hw
    · intro v hv
      exact Or.inr hv
  | cons h0 rest ih =>
    intro s hs hk hinv hmem hnn hnd
    obtain ⟨old0, idv0⟩ := h0
    have hmem0 : tget s.sat2id old0 = some idv0 :=
      hmem _ (List.mem_cons_self _ _)
    have hne0 : old0 ≠ newSatKey txid := hnn _ (List.mem_cons_self _ _)
    obtain ⟨st1, sk1, si1, sp1, so1, sid1, sn1, sv1⟩ :=
      migrateHit_step txid htx s old0 idv0 hs hk hinv hmem0 hne0
    simp only [List.map_cons, List.nodup_cons] at hnd
    have hmem' : ∀ h ∈ rest, tget (migrateHit txid s (old0, idv0)).sat2id h.1 =
        some h.2 := by
      intro h hh
      rw [sp1 _ (hnn _ (List.mem_cons_of_mem _ hh)) ?_]
      · exact hmem _ (List.mem_cons_of_mem _ hh)
      · intro hc
        exact hnd.1 (hc ▸ List.mem_map_of_mem Prod.fst hh)
    have hnn' : ∀ h ∈ rest, h.1 ≠ newSatKey txid := fun h hh =>
      hnn _ (List.mem_cons_of_mem _ hh)
    obtain ⟨⟨it, ik, ii⟩, ihits, ipres, inew, ival⟩ :=
      ih (migrateHit txid s (old0, idv0)) st1 sk1 si1 hmem' hnn' hnd.2
    rw [List.foldl_cons]
    refine ⟨⟨it, ik, ii⟩, ?_, ?_, ?_, ?_⟩
    · intro h hh
      rcases List.mem_cons.1 hh with hcase | hcase
      · subst hcase
        constructor
        · rw [ipres _ hne0 ?_]
          · exact so1
          · intro hc
            exact hnd.1 (by simpa using hc)
        · exact inew _ sid1
      · exact ihits _ hcase
    · intro k h1 h2
      simp only [List.map_cons, List.mem_cons] at h2
      push_neg at h2
      rw [ipres _ h1 h2.2, sp1 _ h1 h2.1]
    · intro w hw
      exact inew _ (sn1 _ hw)
    · intro v hv
      rcases ival v hv with h | h
      · exact Or.inl (List.mem_cons_of_mem _ h)
      · rcases sv1 v h with h' | h'
        · exact Or.inl (h' ▸ List.mem_cons_self _ _)
        · exact Or.inr h'

theorem migrate_fold_mem (txid : ℕ) :
    ∀ (hits : List (List ℕ × List ℕ)) (s : Store)
      (p : List ℕ × List ℕ),
      p ∈ (hits.foldl (migrateHit txid) s).sat2id →
      p.1 = newSatKey txid ∨ p ∈ s.sat2id := by
  intro hits
  induction hits with
  | nil =>
    intro s p hp
    exact Or.inr hp
  | cons h0 rest ih =>
    intro s p hp
    rw [List.foldl_cons] at hp
    rcases ih _ p hp with h | h
    · exact Or.inl h
    · rcases mem_tins_sub _ _ _ p h with h' | h'
      · left
        rw [h']
        rfl
      · exact Or.inr (mem_trem_sub _ _ _ h')

theorem moveInput_spec (txid : ℕ) (htx : txid < 2 ^ 256) (s : Store)
    (x : TxIn) (hp : OPWf x.previous_output)
    (hpne : x.previous_output ≠ OutPoint.mk txid 0)
    (hs : TblSorted s.sat2id) (hk : SatKeysWf s.sat2id)
    (hinv : InvPair s.sat2id s.id2sat) :
    (TblSorted (moveInput txid s x).sat2id ∧
     SatKeysWf (moveInput txid s x).sat2id ∧
     InvPair (moveInput txid s x).sat2id (moveInput txid s x).id2sat) ∧
    (∀ k v (q : SatPoint), tget s.sat2id k = some v → SPWf q →
      k = encode_satpoint q → q.outpoint = x.previous_output →
      tget (moveInput txid s x).sat2id k = none ∧
      tget (moveInput txid s x).id2sat v = some (newSatKey txid)) ∧
    (∀ k, k ≠ newSatKey txid →
      (∀ q : SatPoint, SPWf q → k = encode_satpoint q →
        q.outpoint ≠ x.previous_output) →
      tget (moveInput txid s x).sat2id k = tget s.sat2id k) ∧
    (∀ k, k ≠ newSatKey txid → tget s.sat2id k = none →
      tget (moveInput txid s x).sat2id k = none) ∧
    (∀ w, tget s.id2sat w = some (newSatKey txid) →
      tget (moveInput txid s x).id2sat w = some (newSatKey txid)) ∧
    (∀ v, tget (moveInput txid s x).sat2id (newSatKey txid) = some v →
      (∃ p ∈ s.sat2id, p.2 = v ∧
        (∃ q : SatPoint, SPWf q ∧ p.1 = encode_satpoint q ∧
          q.outpoint = x.previous_output)) ∨
      tget s.sat2id (newSatKey txid) = some v) ∧
    (∀ p ∈ (moveInput txid s x).sat2id,
      p.1 = newSatKey txid ∨ p ∈ s.sat2id) := by
  have hnd : (tkeys s.sat2id).Nodup := TblSorted_nodup _ hs
  have hmi : moveInput txid s x =
      (tscan s.sat2id (encode_satpoint ⟨x.previous_output, 0⟩)
        (encode_satpoint ⟨x.previous_output, U64MAX⟩)).foldl
        (migrateHit txid) s := rfl
  set hits := tscan s.sat2id (encode_satpoint ⟨x.previous_output, 0⟩)
    (encode_satpoint ⟨x.previous_output, U64MAX⟩) with hhits
  have hhit_mem : ∀ h ∈ hits, tget s.sat2id h.1 = some h.2 := by
    intro h hh
    exact tget_of_mem hnd (mem_tscan_sub _ _ _ _ hh)
  have hhit_q : ∀ h ∈ hits, ∃ q : SatPoint, SPWf q ∧
      h.1 = encode_satpoint q ∧ q.outpoint = x.previous_output := by
    intro h hh
    rw [hhits, mem_tscan] at hh
    obtain ⟨hmem, hlo, hhi⟩ := hh
    obtain ⟨q, hqwf, hqk⟩ := hk h hmem
    refine ⟨q, hqwf, hqk, ?_⟩
    rw [hqk] at hlo hhi
    exact (satpoint_in_scan_iff x.previous_output q hqwf hp |>.mp
      ⟨hlo, hhi⟩)
  have hhit_nn : ∀ h ∈ hits, h.1 ≠ newSatKey txid := by
    intro h hh hc
    obtain ⟨q, hqwf, hqk, hqo⟩ := hhit_q h hh
    rw [hqk] at hc
    have : q = ⟨⟨txid, 0⟩, 0⟩ :=
      encode_satpoint_inj hqwf ⟨⟨htx, by norm_num⟩, by norm_num⟩ hc
    rw [this] at hqo
    exact hpne hqo.symm
  have hhit_nd : (hits.map Prod.fst).Nodup := tscan_keys_nodup _ _ _ hnd
  obtain ⟨⟨it, ik, ii⟩, ihits, ipres, inew, ival⟩ :=
    migrate_fold txid htx hits s hs hk hinv hhit_mem hhit_nn hhit_nd
  rw [hmi]
  refine ⟨⟨it, ik, ii⟩, ?_, ?_, ?_, inew, ?_, ?_⟩
  · intro k v q hv hqwf hqk hqo
    have hin : (k, v) ∈ hits := by
      rw [hhits, mem_tscan]
      refine ⟨mem_of_tget hv, ?_⟩
      have := (satpoint_in_scan_iff x.previous_output q hqwf hp).mpr hqo
      rw [hqk]
      exact this
    exact ihits _ hin
  · intro k hkn hnomatch
    refine ipres k hkn ?_
    intro hc
    rw [List.mem_map] at hc
    obtain ⟨h, hh, hhk⟩ := hc
    obtain ⟨q, hqwf, hqk, hqo⟩ := hhit_q h hh
    exact hnomatch q hqwf (hhk ▸ hqk) hqo
  · intro k hkn hnone
    have hknotin : k ∉ hits.map Prod.fst := by
      intro hc
      rw [List.mem_map] at hc
      obtain ⟨h, hh, hhk⟩ := hc
      have := hhit_mem h hh
      rw [hhk, hnone] at this
      cases this
    rw [ipres k hkn hknotin, hnone]
  · intro v hv
    rcases ival v hv with h | h
    · rw [List.mem_map] at h
      obtain ⟨h2, hh2, hh2v⟩ := h
      obtain ⟨q, hqwf, hqk, hqo⟩ := hhit_q h2 hh2
      exact Or.inl ⟨h2, mem_tscan_sub _ _ _ _ hh2, hh2v, q, hqwf, hqk, hqo⟩
    · exact Or.inr h
  · intro p hpmem
    exact migrate_fold_mem txid hits s p hpmem

theorem moveInput_empty (txid : ℕ) (s : Store) (x : TxIn)
    (hk : SatKeysWf s.sat2id)
    (hemp : ∀ p ∈ s.sat2id, ∀ q : SatPoint, SPWf q →
      p.1 = encode_satpoint q → q.outpoint ≠ x.previous_output)
    (hp : OPWf x.previous_output) :
    moveInput txid s x = s := by
  have hscan : tscan s.sat2id (encode_satpoint ⟨x.previous_output, 0⟩)
      (encode_satpoint ⟨x.previous_output, U64MAX⟩) = [] := by
    rw [List.eq_nil_iff_forall_not_mem]
    intro p hpm
    rw [mem_tscan] at hpm
    obtain ⟨hmem, hlo, hhi⟩ := hpm
    obtain ⟨q, hqwf, hqk⟩ := hk p hmem
    rw [hqk] at hlo hhi
    have := (satpoint_in_scan_iff x.previous_output q hqwf hp).mp ⟨hlo, hhi⟩
    exact hemp p hmem q hqwf hqk this
  rw [moveInput]
  rw [hscan]
  rfl

theorem inputs_fold_spec (txid : ℕ) (htx : txid < 2 ^ 256) :
    ∀ (inputs : List TxIn) (s : Store),
      (∀ x ∈ inputs, OPWf x.previous_output) →
      (∀ x ∈ inputs, x.previous_output ≠ OutPoint.mk txid 0) →
      TblSorted s.sat2id → SatKeysWf s.sat2id → InvPair s.sat2id s.id2sat →
      (TblSorted (inputs.foldl (moveInput txid) s).sat2id ∧
       SatKeysWf (inputs.foldl (moveInput txid) s).sat2id ∧
       InvPair (inputs.foldl (moveInput txid) s).sat2id
         (inputs.foldl (moveInput txid) s).id2sat) ∧
      (∀ k v (q : SatPoint), tget s.sat2id k = some v → SPWf q →
        k = encode_satpoint q →
        (∃ x ∈ inputs, q.outpoint = x.previous_output) →
        tget (inputs.foldl (moveInput txid) s).sat2id k = none ∧
        tget (inputs.foldl (moveInput txid) s).id2sat v =
          some (newSatKey txid)) ∧
      (∀ w, tget s.id2sat w = some (newSatKey txid) →
        tget (inputs.foldl (moveInput txid) s).id2sat w =
          some (newSatKey txid)) ∧
      (∀ k, k ≠ newSatKey txid → tget s.sat2id k = none →
        tget (inputs.foldl (moveInput txid) s).sat2id k = none) ∧
      (∀ p ∈ (inputs.foldl (moveInput txid) s).sat2id,
        p.1 = newSatKey txid ∨ p ∈ s.sat2id) ∧
      ((∀ p ∈ s.sat2id, ∀ q : SatPoint, SPWf q → p.1 = encode_satpoint q →
          ∀ x ∈ inputs, q.outpoint ≠ x.previous_output) →
        inputs.foldl (moveInput txid) s = s) := by
  intro inputs
  induction inputs with
  | nil =>
    intro s hwf hnself hs hk hinv
    refine ⟨⟨hs, hk, hinv⟩, ?_, ?_, ?_, ?_, ?_⟩
    · intro k v q h1 h2 h3 h4
      obtain ⟨x, hx, _⟩ := h4
      cases hx
    · intro w hw
      exact hw
    · intro k h1 h2
      exact h2
    · intro p hpm
      exact Or.inr hpm
    · intro hemp
      rfl
  | cons x rest ih =>
    intro s hwf hnself hs hk hinv
    have hxwf : OPWf x.previous_output := hwf _ (List.mem_cons_self _ _)
    have hxns : x.previous_output ≠ OutPoint.mk txid 0 :=
      hnself _ (List.mem_cons_self _ _)
    obtain ⟨⟨mt, mk, mi⟩, mmoved, mpres, mnone, minew, mval, mmem⟩ :=
      moveInput_spec txid htx s x hxwf hxns hs hk hinv
    obtain ⟨⟨it, ik, ii⟩, imoved, inewp, inone, imem, iemp⟩ :=
      ih (moveInput txid s x) (fun y hy => hwf _ (List.mem_cons_of_mem _ hy))
        (fun y hy => hnself _ (List.mem_cons_of_mem _ hy)) mt mk mi
    rw [List.foldl_cons]
    refine ⟨⟨it, ik, ii⟩, ?_, ?_, ?_, ?_, ?_⟩
    · intro k v q h1 h2 h3 h4
      have hknn : k ≠ newSatKey txid := by
        intro hc
        rw [h3] at hc
        have : q = ⟨⟨txid, 0⟩, 0⟩ :=
          encode_satpoint_inj h2 ⟨⟨htx, by norm_num⟩, by norm_num⟩ hc
        rcases h4 with ⟨y, hy, hqo⟩
        rw [this] at hqo
        exact hnself _ hy hqo.symm
      rcases h4 with ⟨y, hy, hqo⟩
      rcases List.mem_cons.1 hy with hcase | hcase
      · subst hcase
        obtain ⟨hrem, hid⟩ := mmoved k v q h1 h2 h3 hqo
        exact ⟨inone k hknn hrem, inewp v hid⟩
      · by_cases hqx : q.outpoint = x.previous_output
        · obtain ⟨hrem, hid⟩ := mmoved k v q h1 h2 h3 hqx
          exact ⟨inone k hknn hrem, inewp v hid⟩
        · have hpres1 : tget (moveInput txid s x).sat2id k = some v := by
            rw [mpres k hknn ?_]
            · exact h1
            · intro q' hq'wf hq'k
              have : q' = q := encode_satpoint_inj hq'wf h2 (by rw [← hq'k, h3])
              rw [this]
              exact hqx
          exact imoved k v q hpres1 h2 h3 ⟨y, hcase, hqo⟩
    · intro w hw
      exact inewp w (minew w hw)
    · intro k h1 h2
      exact inone k h1 (mnone k h1 h2)
    · intro p hpm
      rcases imem p hpm with h | h
      · exact Or.inl h
      · exact mmem p h
    · intro hemp
      have hmv : moveInput txid s x = s :=
        moveInput_empty txid s x hk
          (fun p hpm q hq hk2 => hemp p hpm q hq hk2 x (List.mem_cons_self _ _))
          hxwf
      have h2 := iemp (by
        rw [hmv]
        intro p hpm q hq hk2 y hy
        exact hemp p hpm q hq hk2 y (List.mem_cons_of_mem _ hy))
      rw [hmv] at h2
      rw [hmv]
      exact h2

/-- The inscribe step of `index_transaction_inscriptions` (updater.rs
378-386) preserves the one-directional inverse invariant provided the
inscribing txid was never recorded before. -/
theorem inscribe_step_spec (txid : ℕ) (htx : txid < 2 ^ 256) (s : Store)
    (hs : TblSorted s.sat2id) (hk : SatKeysWf s.sat2id)
    (hinv : InvPair s.sat2id s.id2sat)
    (hfresh : tget s.id2sat (idBytes txid) = none) :
    TblSorted (tins s.sat2id (newSatKey txid) (idBytes txid)) ∧
    SatKeysWf (tins s.sat2id (newSatKey txid) (idBytes txid)) ∧
    InvPair (tins s.sat2id (newSatKey txid) (idBytes txid))
      (tins s.id2sat (idBytes txid) (newSatKey txid)) := by
  refine ⟨TblSorted_tins _ _ _ hs, ?_, ?_⟩
  · intro p hp
    rcases mem_tins_sub _ _ _ p hp with h | h
    · refine ⟨⟨⟨txid, 0⟩, 0⟩, ⟨⟨htx, by norm_num⟩, by norm_num⟩, ?_⟩
      rw [h]
      rfl
    · exact hk p h
  · intro k v hv
    by_cases hkn : k = newSatKey txid
    · subst hkn
      rw [tget_tins_self] at hv
      cases hv
      rw [tget_tins_self]
    · rw [tget_tins_ne _ _ _ _ hkn] at hv
      have hvt : v ≠ idBytes txid := by
        intro hc
        subst hc
        rw [hinv _ _ hv] at hfresh
        cases hfresh
      rw [tget_tins_ne _ _ _ _ hvt]
      exact hinv _ _ hv

/-- C6 (amended): the inverse-index invariant that actually holds, in one
direction and composably: if every `SATPOINT_TO_INSCRIPTION` row `s ↦ id`
satisfies `INSCRIPTION_TO_SATPOINT[id] = s` (with sorted, well-formed
satpoint keys) before a call to `index_transaction_inscriptions`, and the
inscribing txid (if any) is fresh, then the same holds after.  The claimed
two-sided inverse — `SATPOINT_TO_INSCRIPTION[INSCRIPTION_TO_SATPOINT[id]] =
id` for *every* current id — is false: when one transaction collects two
inscriptions they land on the same satpoint and the earlier one's reverse
row is overwritten (see the counterexample). -/
theorem inscription_pointer_invariant (insc : Transaction → Bool)
    (tx : Transaction) (txid : ℕ) (s : Store)
    (htx : txid < 2 ^ 256)
    (hs : TblSorted s.sat2id) (hk : SatKeysWf s.sat2id)
    (hinv : InvPair s.sat2id s.id2sat)
    (hwf : ∀ x ∈ tx.input, OPWf x.previous_output)
    (hnself : ∀ x ∈ tx.input, x.previous_output ≠ OutPoint.mk txid 0)
    (hfresh : insc tx = true → tget s.id2sat (idBytes txid) = none) :
    TblSorted (index_transaction_inscriptions insc tx txid s).2.sat2id ∧
    SatKeysWf (index_transaction_inscriptions insc tx txid s).2.sat2id ∧
    InvPair (index_transaction_inscriptions insc tx txid s).2.sat2id
      (index_transaction_inscriptions insc tx txid s).2.id2sat := by
  rw [index_transaction_inscriptions]
  by_cases hi : insc tx
  · simp only [hi, if_true]
    obtain ⟨s1, k1, i1⟩ :=
      inscribe_step_spec txid htx s hs hk hinv (hfresh hi)
    exact (inputs_fold_spec txid htx tx.input _ hwf hnself s1 k1 i1).1
  · simp only [hi, if_false]
    exact (inputs_fold_spec txid htx tx.input s hwf hnself hs hk hinv).1

/-- C5 (amended): what `index_transaction_inscriptions` establishes.  It
returns exactly `inscription_of(tx).is_some()`.  When the transaction
inscribes, `INSCRIPTION_TO_SATPOINT[txid] = Satpoint((txid, 0), 0)` in the
final state, and when additionally no inscription rests in any input, the
`SATPOINT_TO_INSCRIPTION` row holds the txid too.  Every pair `(sp, id)`
resting in an input's prefix range has its old satpoint row deleted and
`INSCRIPTION_TO_SATPOINT[id]` updated to `Satpoint((txid, 0), 0)`.  The
claim's stronger reading — that `SATPOINT_TO_INSCRIPTION` finally locates
*every* such id (and the new inscription) at `Satpoint((txid, 0), 0)` — is
false, since all of them share that one key and only the last write
survives (see the counterexample). -/
theorem inscription_tracker_moves (insc : Transaction → Bool)
    (tx : Transaction) (txid : ℕ) (s : Store)
    (htx : txid < 2 ^ 256)
    (hs : TblSorted s.sat2id) (hk : SatKeysWf s.sat2id)
    (hinv : InvPair s.sat2id s.id2sat)
    (hwf : ∀ x ∈ tx.input, OPWf x.previous_output)
    (hnself : ∀ x ∈ tx.input, x.previous_output ≠ OutPoint.mk txid 0)
    (hfresh : insc tx = true → tget s.id2sat (idBytes txid) = none) :
    (index_transaction_inscriptions insc tx txid s).1 = insc tx ∧
    (insc tx = true →
      tget (index_transaction_inscriptions insc tx txid s).2.id2sat
        (idBytes txid) = some (newSatKey txid)) ∧
    (∀ k v (q : SatPoint), tget s.sat2id k = some v → SPWf q →
      k = encode_satpoint q →
      (∃ x ∈ tx.input, q.outpoint = x.previous_output) →
      tget (index_transaction_inscriptions insc tx txid s).2.sat2id k =
        none ∧
      tget (index_transaction_inscriptions insc tx txid s).2.id2sat v =
        some (newSatKey txid)) ∧
    (insc tx = true →
      (∀ p ∈ s.sat2id, ∀ q : SatPoint, SPWf q → p.1 = encode_satpoint q →
        ∀ x ∈ tx.input, q.outpoint ≠ x.previous_output) →
      tget (index_transaction_inscriptions insc tx txid s).2.sat2id
        (newSatKey txid) = some (idBytes txid)) := by
  rw [index_transaction_inscriptions]
  by_cases hi : insc tx
  · simp only [hi, if_true]
    obtain ⟨s1, k1, i1⟩ :=
      inscribe_step_spec txid htx s hs hk hinv (hfresh hi)
    obtain ⟨_, fmoved, fnew, fnone, fmem, femp⟩ :=
      inputs_fold_spec txid htx tx.input
        { s with id2sat := tins s.id2sat (idBytes txid) (encode_satpoint ⟨⟨txid, 0⟩, 0⟩),
                 sat2id := tins s.sat2id (encode_satpoint ⟨⟨txid, 0⟩, 0⟩) (idBytes txid) }
        hwf hnself s1 k1 i1
    refine ⟨trivial, ?_, ?_, ?_⟩
    · intro _
      exact fnew _ (tget_tins_self _ _ _)
    · intro k v q hv hq hkq hex
      have hknn : k ≠ newSatKey txid := by
        intro hc
        rw [hkq] at hc
        have : q = ⟨⟨txid, 0⟩, 0⟩ :=
          encode_satpoint_inj hq ⟨⟨htx, by norm_num⟩, by norm_num⟩ hc
        obtain ⟨x, hx, hqo⟩ := hex
        rw [this] at hqo
        exact hnself _ hx hqo.symm
      have hv1 : tget (tins s.sat2id (newSatKey txid) (idBytes txid)) k =
          some v := by
        rw [tget_tins_ne _ _ _ _ hknn]
        exact hv
      exact fmoved k v q hv1 hq hkq hex
    · intro _ hemp
      have hemp1 : ∀ p ∈ tins s.sat2id (newSatKey txid) (idBytes txid),
          ∀ q : SatPoint, SPWf q → p.1 = encode_satpoint q →
          ∀ x ∈ tx.input, q.outpoint ≠ x.previous_output := by
        intro p hp q hq hkq x hx hc
        rcases mem_tins_sub _ _ _ p hp with h | h
        · rw [h] at hkq
          have : q = ⟨⟨txid, 0⟩, 0⟩ :=
            encode_satpoint_inj hq ⟨⟨htx, by norm_num⟩, by norm_num⟩ hkq.symm
          rw [this] at hc
          exact hnself _ hx hc.symm
        · exact hemp p h q hq hkq x hx hc
      rw [femp hemp1]
      exact tget_tins_self _ _ _
  · simp only [hi, if_false]
    obtain ⟨_, fmoved, fnew, fnone, fmem, femp⟩ :=
      inputs_fold_spec txid htx tx.input s hwf hnself hs hk hinv
    refine ⟨trivial, ?_, ?_, ?_⟩
    · intro hc
      simp at hc
    · intro k v q hv hq hkq hex
      exact fmoved k v q hv hq hkq hex
    · intro hc
      simp at hc

/-- C6 counterexample: after txid 1 and txid 2 each inscribe and txid 3
spends both outpoints in one transaction, both inscriptions point at
`Satpoint((3, 0), 0)` but the satpoint row there holds only id 2, so
`SATPOINT_TO_INSCRIPTION[INSCRIPTION_TO_SATPOINT[id 1]] = id 2 ≠ id 1`,
refuting the claimed two-sided inverse for the current inscription id 1. -/
theorem inscription_pointer_invariant_cex :
    tget stCex3.id2sat (idBytes 1) = some (newSatKey 3) ∧
    tget stCex3.sat2id (newSatKey 3) = some (idBytes 2) ∧
    idBytes 2 ≠ idBytes 1 := by
  refine ⟨rfl, rfl, by decide⟩

/-- C6 witness: the amended one-directional invariant applied to a concrete
inscribing call on the empty store. -/
theorem inscription_pointer_invariant_witness :
    TblSorted stCex1.sat2id ∧ SatKeysWf stCex1.sat2id ∧
    InvPair stCex1.sat2id stCex1.id2sat :=
  inscription_pointer_invariant inscAlways tx1cex 1 emptyStore
    (by norm_num) List.Pairwise.nil
    (fun p hp => absurd hp (List.not_mem_nil p))
    (fun k v h => Option.noConfusion h)
    (fun x hx => absurd hx (List.not_mem_nil x))
    (fun x hx => absurd hx (List.not_mem_nil x))
    (fun _ => rfl)

/-- C5 counterexample: the pair `(Satpoint((1, 0), 0), id 1)` lies in the
prefix range of txid 3's first input, so the claim demands both indices
finally locate id 1 at `Satpoint((3, 0), 0)`; but the satpoint row there
holds id 2 — the second migrated inscription overwrote it. -/
theorem inscription_tracker_moves_cex :
    tget stCex2.sat2id (encode_satpoint ⟨⟨1, 0⟩, 0⟩) = some (idBytes 1) ∧
    tget stCex3.sat2id (newSatKey 3) = some (idBytes 2) ∧
    idBytes 2 ≠ idBytes 1 := by
  refine ⟨rfl, rfl, by decide⟩

/-- C5 witness: the amended statement applied to a concrete inscribing call
on the empty store — it returns `true` and installs both rows at
`Satpoint((1, 0), 0)`. -/
theorem inscription_tracker_moves_witness :
    (index_transaction_inscriptions inscAlways tx1cex 1 emptyStore).1 =
      inscAlways tx1cex ∧
    tget stCex1.id2sat (idBytes 1) = some (newSatKey 1) ∧
    tget stCex1.sat2id (newSatKey 1) = some (idBytes 1) := by
  have h := inscription_tracker_moves inscAlways tx1cex 1 emptyStore
    (by norm_num) List.Pairwise.nil
    (fun p hp => absurd hp (List.not_mem_nil p))
    (fun k v hkv => Option.noConfusion hkv)
    (fun x hx => absurd hx (List.not_mem_nil x))
    (fun x hx => absurd hx (List.not_mem_nil x))
    (fun _ => rfl)
  exact ⟨h.1, h.2.1 rfl,
    h.2.2.2 rfl (fun p hp => absurd hp (List.not_mem_nil p))⟩
